import Mathlib

set_option linter.unusedVariables false

namespace Textbus

/-! Shallow embedding of the formatting-range index of the repository:
the `Format` class (`CleanFormatRule`, `merge`, `stretch`, `split`,
`shrink`, `extract`, `createFormatByRange`, `discard`, `toTree`,
`normalizeFormatRange`, `tileRanges`, `formatRangesToMap`, `toRanges`,
`equal`) together with the `Formatter` capability descriptor. -/

/-- Primitive JavaScript scalars usable as format values or record fields:
strings, numbers and booleans.  Numbers are modelled as integers; the
formatting code never computes with them, it only compares them. -/
inductive JSPrim where
  | str (s : String)
  | num (n : Int)
  | bool (b : Bool)
deriving DecidableEq, Repr

/-- Model of the source's `FormatValue` union
(`string | number | boolean | null | Record<string, string | number | boolean> | CleanFormatRule`).
`null` also stands for JavaScript `undefined` (array holes): the source
distinguishes the two only through `isVoid`, which voids both.  A record
is a flat object; JavaScript key order is unobservable modulo the deep
equality used by the specification, so where a statement needs one
representative per object we use the key-sorted one.  `clean v` models a
`CleanFormatRule` instance wrapping `v` (the source's constructor type
never nests a rule inside a rule). -/
inductive FormatValue where
  | null
  | prim (p : JSPrim)
  | record (fields : List (String × JSPrim))
  | clean (v : FormatValue)
deriving DecidableEq, Repr

/-- Source `isVoid`: `data === null || typeof data === 'undefined'`. -/
def isVoid : FormatValue → Bool
  | .null => true
  | _ => false

/-- JavaScript strict equality (`===`) on the value model.  `null` and
primitives compare by value; records and `CleanFormatRule` wrappers are
heap objects, which `===` compares by reference — two separately
constructed objects are never `===`, and the source never relies on two
aliases of one object meeting in a `===` test whose structural fallback
in `equal` would answer differently, so object `===` is modelled `false`. -/
def jsStrictEq : FormatValue → FormatValue → Bool
  | .null, .null => true
  | .prim p, .prim q => p == q
  | _, _ => false

/-- The own enumerable properties a value exposes to `Object.keys` and
property access inside `Format.equal`: a record exposes its fields, a
`CleanFormatRule` instance exposes its single `value` property.  `null`
has `typeof ... === 'object'` but `Object.keys(null)` throws; `equal` is
never reached with a void value on one side and an object on the other,
and we let that case answer `none` (so `equal` answers `false`). -/
def objFields : FormatValue → Option (List (String × FormatValue))
  | .record fs => some (fs.map (fun kv => (kv.1, FormatValue.prim kv.2)))
  | .clean v => some [("value", v)]
  | _ => none

/-- Source `Format.equal`: strict equality, else — when both sides have
object type — same number of keys and, for every key of the left side,
membership among the right side's keys with `right[key] === left[key]`. -/
def equal (left right : FormatValue) : Bool :=
  if jsStrictEq left right then true
  else
    match objFields left, objFields right with
    | some lf, some rf =>
        lf.length == rf.length &&
        lf.all (fun kv =>
          (rf.map Prod.fst).contains kv.1 &&
          (match List.lookup kv.1 rf with
           | some w => jsStrictEq w kv.2
           | none => false))
    | _, _ => false

/-- Source `FormatRange`: a half-open interval of slot offsets carrying a
value. -/
structure FormatRange where
  startIndex : Nat
  endIndex : Nat
  value : FormatValue
deriving DecidableEq, Repr

/-- Source `FormatType` as used by the `Format` class (`Block` versus
everything inline). -/
inductive FormatType where
  | Block
  | Inline
deriving DecidableEq, Repr

/-- Source `Formatter` capability descriptor.  JavaScript compares
formatters by object identity; `id` models that identity (distinct
formatter objects carry distinct ids). -/
structure Formatter where
  id : Nat
  name : String
  type : FormatType
  overlap : Bool
  columned : Bool
deriving DecidableEq, Repr

/-- Source `FormatItem`: a range together with its formatter. -/
structure FormatItem where
  formatter : Formatter
  value : FormatValue
  startIndex : Nat
  endIndex : Nat
deriving DecidableEq, Repr

/-- Source `FormatTree`.  The source leaves `formats`/`children` absent
rather than present-but-empty, and never produces a present-but-empty
array for either, so absence is modelled by the empty list. -/
inductive FormatTree where
  | mk (startIndex endIndex : Nat) (formats : List FormatItem) (children : List FormatTree)

/-- The formatter → ranges mapping of a `Format` object.  A JavaScript
`Map` iterates in key-insertion order; it is modelled as an association
list with identity-distinct formatter keys. -/
abbrev FormatMap := List (Formatter × List FormatRange)

/-- Source `Format`: the per-slot range store.  Of the owning slot only
its length is ever read. -/
structure Format where
  slotLength : Nat
  map : FormatMap
deriving DecidableEq, Repr

/-- `Map.get` on the store's mapping. -/
def mapGet (m : FormatMap) (f : Formatter) : Option (List FormatRange) :=
  (m.find? (fun e => e.1 == f)).map (fun e => e.2)

/-- `Map.set`: replaces the value at an existing key in place, otherwise
appends a new entry at the end (JavaScript `Map` insertion order). -/
def mapSet (m : FormatMap) (f : Formatter) (v : List FormatRange) : FormatMap :=
  if m.any (fun e => e.1 == f) then
    m.map (fun e => if e.1 == f then (f, v) else e)
  else m ++ [(f, v)]

/-- `Map.delete`. -/
def mapDelete (m : FormatMap) (f : Formatter) : FormatMap :=
  m.filter (fun e => !(e.1 == f))

/-- Model of assigning a JavaScript array's `length`: truncate, or extend
with holes (holes read back as `undefined`, i.e. void). -/
def listSetLen (l : List FormatValue) (n : Nat) : List FormatValue :=
  l.take n ++ List.replicate (n - l.length) FormatValue.null

/-- Model of `Array.prototype.fill(v, s, e)`: overwrite the positions in
`[s, e)` that exist in the array. -/
def listFill : List FormatValue → FormatValue → Nat → Nat → List FormatValue
  | [], _, _, _ => []
  | x :: xs, v, s, e =>
    (if s = 0 ∧ 0 < e then v else x) :: listFill xs v (s - 1) (e - 1)

/-- One range of `Format.tileRanges`'s loop: grow the array to the
range's `endIndex`, then fill the range's interval with its value. -/
def tileStep (acc : List FormatValue) (r : FormatRange) : List FormatValue :=
  listFill (listSetLen acc (max acc.length r.endIndex)) r.value r.startIndex r.endIndex

/-- Source `Format.tileRanges` (instance method): expand ranges into a
dense per-position value array — each range first grows the array to its
`endIndex` and then fills its interval, later ranges overwriting earlier
ones — finally clipping the array to the slot's length. -/
def tileRanges (slotLength : Nat) (ranges : List FormatRange) : List FormatValue :=
  let arr := ranges.foldl tileStep []
  listSetLen arr (min arr.length slotLength)

/-- The scan inside the source's `Format.toRanges`: `cur` is the mutable
`range` variable (the currently open run; the source has already pushed
it into the output array, which is modelled by appending it to `done`
when the run can no longer grow). -/
def toRangesAux : List FormatValue → Nat → Option FormatRange → List FormatRange → List FormatRange
  | [], _, cur, done => done ++ cur.toList
  | item :: rest, i, cur, done =>
    if isVoid item then toRangesAux rest (i + 1) none (done ++ cur.toList)
    else
      match cur with
      | some r =>
        if equal r.value item then
          toRangesAux rest (i + 1) (some { r with endIndex := i + 1 }) done
        else
          toRangesAux rest (i + 1) (some ⟨i, i + 1, item⟩) (done ++ [r])
      | none => toRangesAux rest (i + 1) (some ⟨i, i + 1, item⟩) done

/-- Source `Format.toRanges`: collapse a dense value array back to
coalesced ranges; a void entry closes the current run, an entry `equal`
to the open run's value extends it, anything else opens a new run. -/
def toRanges (values : List FormatValue) : List FormatRange :=
  toRangesAux values 0 none []

/-- One step of the source's `Format.formatRangesToMap`: append the item
to the first group whose key is `Format.equal` to the item's value, or
open a fresh group at the end. -/
def addToGroup : List (FormatValue × List FormatRange) → FormatRange → List (FormatValue × List FormatRange)
  | [], item => [(item.value, [item])]
  | (k, g) :: rest, item =>
    if equal k item.value then (k, g ++ [item]) :: rest
    else (k, g) :: addToGroup rest item

/-- Source `Format.formatRangesToMap`: group ranges into value-equality
classes, keys in first-occurrence order. -/
def formatRangesToMap (oldRanges : List FormatRange) : List (FormatValue × List FormatRange) :=
  oldRanges.foldl addToGroup []

/-- Overlap branch of `normalizeFormatRange`, `CleanFormatRule` with a
non-void inner value: push a null-valued copy of the new range into the
first group whose key is `Format.equal` to the inner value (`break` after
the first match), leaving all other groups alone. -/
def pushCleanToGroup (v : FormatValue) (nr : FormatRange)
    : List (FormatValue × List FormatRange) → List (FormatValue × List FormatRange)
  | [] => []
  | (k, g) :: rest =>
    if equal k v then (k, g ++ [{ nr with value := FormatValue.null }]) :: rest
    else (k, g) :: pushCleanToGroup v nr rest

/-- Non-overlap branch of `normalizeFormatRange`, `CleanFormatRule` with a
non-void inner value: the source looks for the first group whose key is
`Format.equal` to the rule object itself (`Format.equal(item, value)`,
where `value` is the `CleanFormatRule` instance) and replaces that group
by `Format.toRanges(cleanValues)` — `cleanValues` being the freshly built
all-null array of the window's width (the locally spliced `values` array
is discarded). -/
def cleanNonOverlapGroups (cleanVal : FormatValue) (nr : FormatRange)
    : List (FormatValue × List FormatRange) → List (FormatValue × List FormatRange)
  | [] => []
  | (k, g) :: rest =>
    if equal k cleanVal then
      (k, toRanges (List.replicate (nr.endIndex - nr.startIndex) FormatValue.null)) :: rest
    else (k, g) :: cleanNonOverlapGroups cleanVal nr rest

/-- Source `Format.normalizeFormatRange`. -/
def normalizeFormatRange (slotLength : Nat) (formatter : Formatter)
    (oldRanges : List FormatRange) (newRange : Option FormatRange) : List FormatRange :=
  if formatter.overlap then
    let valueGroups : List (List FormatRange) :=
      match newRange with
      | some nr =>
        match nr.value with
        | .clean v =>
          let m := formatRangesToMap oldRanges
          if isVoid v then
            (m.map (fun kg => (kg.1, kg.2 ++ [{ nr with value := FormatValue.null }]))).map (fun kg => kg.2)
          else
            (pushCleanToGroup v nr m).map (fun kg => kg.2)
        | .null =>
          ((formatRangesToMap oldRanges).map
            (fun kg => (kg.1, kg.2 ++ [{ nr with value := FormatValue.null }]))).map (fun kg => kg.2)
        | _ => (formatRangesToMap (nr :: oldRanges)).map (fun kg => kg.2)
      | none => (formatRangesToMap oldRanges).map (fun kg => kg.2)
    valueGroups.flatMap (fun g => toRanges (tileRanges slotLength g))
  else
    let oldRanges' : List FormatRange :=
      match newRange with
      | some nr =>
        match nr.value with
        | .clean v =>
          if isVoid v then oldRanges ++ [nr]
          else
            ((cleanNonOverlapGroups (FormatValue.clean v) nr (formatRangesToMap oldRanges)).map
              (fun kg => kg.2)).flatMap id
        | _ => oldRanges ++ [nr]
      | none => oldRanges
    toRanges (tileRanges slotLength oldRanges')

/-- Argument of the source's overloaded `Format.merge`: block formatters
receive a plain `FormatValue`, inline formatters a `FormatRange`. -/
inductive MergeData where
  | value (v : FormatValue)
  | range (r : FormatRange)
deriving DecidableEq, Repr

/-- Source `Format.merge`.  The pairings excluded by the source's overload
signatures (block formatter with a range, inline formatter with a bare
value) are unreachable through the typed API and modelled as no-ops. -/
def merge (fmt : Format) (formatter : Formatter) (data : MergeData) : Format :=
  match formatter.type with
  | .Block =>
    match data with
    | .range _ => fmt
    | .value v =>
      if isVoid v then { fmt with map := mapDelete fmt.map formatter }
      else if formatter.overlap then
        match v with
        | .clean w =>
          if isVoid w then { fmt with map := mapDelete fmt.map formatter } else fmt
        | _ =>
          let oldRanges := (mapGet fmt.map formatter).getD []
          let groups := formatRangesToMap oldRanges
          let newList := ((groups.map (fun kg => kg.2)).flatMap id) ++ [⟨0, fmt.slotLength, v⟩]
          { fmt with map := mapSet fmt.map formatter newList }
      else
        match v with
        | .clean w =>
          if isVoid w then { fmt with map := mapDelete fmt.map formatter }
          else
            match mapGet fmt.map formatter with
            | some oldRanges =>
              match oldRanges.head? with
              | some r0 =>
                if equal r0.value w then { fmt with map := mapDelete fmt.map formatter } else fmt
              | none => fmt
            | none => fmt
        | _ => { fmt with map := mapSet fmt.map formatter [⟨0, fmt.slotLength, v⟩] }
  | .Inline =>
    match data with
    | .value _ => fmt
    | .range r =>
      match mapGet fmt.map formatter with
      | none =>
        if isVoid r.value then fmt
        else { fmt with map := mapSet fmt.map formatter [r] }
      | some ranges =>
        let newRanges := normalizeFormatRange fmt.slotLength formatter ranges (some r)
        if newRanges.isEmpty then { fmt with map := mapDelete fmt.map formatter }
        else { fmt with map := mapSet fmt.map formatter newRanges }

/-- Per-range update of the source's `Format.stretch`: a range ending
before `index` is untouched; otherwise its end grows by `count` and, when
its start is at or after `index`, its start grows too. -/
def stretchRange (index count : Nat) (r : FormatRange) : FormatRange :=
  if r.endIndex < index then r
  else
    { r with
      endIndex := r.endIndex + count,
      startIndex := if r.startIndex ≥ index then r.startIndex + count else r.startIndex }

/-- Source `Format.stretch`. -/
def stretch (fmt : Format) (index count : Nat) : Format :=
  { fmt with map := fmt.map.map (fun e => (e.1, e.2.map (stretchRange index count))) }

/-- Model of `Array.prototype.splice(index, 0, ...items)`: insertion at
`index`, clamped to the array length as in JavaScript. -/
def listSplice (l : List FormatValue) (index : Nat) (items : List FormatValue) : List FormatValue :=
  l.take index ++ items ++ l.drop index

/-- Source `Format.split`.  `expandedValues` is `Array.from({length:
distance})`: `distance` holes, i.e. void entries. -/
def split (fmt : Format) (index distance : Nat) : Format :=
  let expandedValues := List.replicate distance FormatValue.null
  { fmt with map := fmt.map.map (fun e =>
      if e.1.type = FormatType.Block then
        (e.1, e.2.map (fun r => { r with endIndex := r.endIndex + distance }))
      else if e.1.overlap then
        (e.1, (formatRangesToMap e.2).flatMap
          (fun kg => toRanges (listSplice (tileRanges fmt.slotLength kg.2) index expandedValues)))
      else
        (e.1, toRanges (listSplice (tileRanges fmt.slotLength e.2) index expandedValues))) }

/-- Per-range update of the first phase of the source's `Format.shrink`. -/
def shrinkRange (startIndex count : Nat) (r : FormatRange) : FormatRange :=
  if r.endIndex ≤ startIndex then r
  else
    { r with
      endIndex := max startIndex (r.endIndex - count),
      startIndex :=
        if r.startIndex > startIndex then max startIndex (r.startIndex - count)
        else r.startIndex }

/-- Source `Format.shrink`: shift every range, then re-normalize every
formatter's list with `normalizeFormatRange` (no new range), dropping
formatters whose list normalizes to empty. -/
def shrink (fmt : Format) (startIndex count : Nat) : Format :=
  let shifted : FormatMap := fmt.map.map (fun e => (e.1, e.2.map (shrinkRange startIndex count)))
  { fmt with map := shifted.filterMap (fun e =>
      let newRanges := normalizeFormatRange fmt.slotLength e.1 e.2 none
      if newRanges.isEmpty then none else some (e.1, newRanges)) }

/-- Source `Format.extractFormatRangesByFormatter`: the portions of the
formatter's ranges intersecting `[startIndex, endIndex)`, clipped to that
window, zero-width clippings dropped. -/
def extractFormatRangesByFormatter (fmt : Format) (startIndex endIndex : Nat)
    (formatter : Formatter) : List FormatRange :=
  ((mapGet fmt.map formatter).getD []).filterMap (fun r =>
    if r.startIndex > endIndex ∨ r.endIndex < startIndex then none
    else
      if max r.startIndex startIndex < min r.endIndex endIndex then
        some ⟨max r.startIndex startIndex, min r.endIndex endIndex, r.value⟩
      else none)

/-- Source `Format.extract`: a fresh store over the same slot holding the
clipped ranges; formatters with no surviving range are omitted. -/
def extract (fmt : Format) (startIndex endIndex : Nat) : Format :=
  { slotLength := fmt.slotLength
    map := fmt.map.filterMap (fun e =>
      let ex := extractFormatRangesByFormatter fmt startIndex endIndex e.1
      if ex.isEmpty then none else some (e.1, ex)) }

/-- Source `Format.createFormatByRange`: the same extraction, bound to a
new slot, with every surviving range rebased by `startIndex`. -/
def createFormatByRange (fmt : Format) (slotLength' : Nat) (startIndex endIndex : Nat) : Format :=
  { slotLength := slotLength'
    map := fmt.map.filterMap (fun e =>
      let ex := extractFormatRangesByFormatter fmt startIndex endIndex e.1
      if ex.isEmpty then none
      else some (e.1, ex.map (fun r =>
        { r with startIndex := r.startIndex - startIndex, endIndex := r.endIndex - startIndex })))}

/-- Source `Format.discard`: when the formatter has stored ranges it
computes `normalizeFormatRange` over them with a null-valued range for
the window — and drops the result, never writing it back; the store is
returned unchanged. -/
def discard (fmt : Format) (formatter : Formatter) (startIndex endIndex : Nat) : Format :=
  match mapGet fmt.map formatter with
  | some oldRanges =>
    let _ := normalizeFormatRange fmt.slotLength formatter oldRanges
      (some ⟨startIndex, endIndex, FormatValue.null⟩)
    fmt
  | none => fmt

/-- Exact-window test of `toTree`'s range scan. -/
def exactR (s e : Nat) (r : FormatRange) : Bool :=
  r.startIndex == s && r.endIndex == e

/-- One step of `toTree`'s scan for the next split window: the updates to
the source's `nextStartIndex`/`nextEndIndex` pair (exact-window ranges
take the first branch and leave the pair untouched). -/
def scanStep (s e : Nat) (st : Nat × Nat) (p : Formatter × FormatRange) : Nat × Nat :=
  if exactR s e p.2 then st
  else if p.2.startIndex < st.1 then (p.2.startIndex, p.2.endIndex)
  else if p.2.startIndex == st.1 then (st.1, max st.2 p.2.endIndex)
  else st

/-- The item pushed by `toTree` for a consumed or deferred range. -/
def mkItem (p : Formatter × FormatRange) : FormatItem :=
  ⟨p.1, p.2.value, p.2.startIndex, p.2.endIndex⟩

/-- The `push` helper inside `toTree`: a child carrying no `formats` of
its own but having children is spliced flat into the parent's child
list. -/
def pushSplice : FormatTree → List FormatTree
  | .mk s e (f :: fs) c => [.mk s e (f :: fs) c]
  | .mk _ _ [] (c :: cs) => c :: cs
  | .mk s e [] [] => [.mk s e [] []]

/-- The flat formatter/range pair list `toTree` scans: per store entry
the ranges in reverse insertion order (the source unshifts onto the
front). -/
def treeFlat (m : FormatMap) : List (Formatter × FormatRange) :=
  m.flatMap (fun p => p.2.reverse.map (fun r => (p.1, r)))

/-- `toTree`'s `formats` local: exact-window pairs of non-columned
formatters, as items. -/
def treeFormats (s e : Nat) (flat : List (Formatter × FormatRange)) : List FormatItem :=
  (flat.filter (fun p => exactR s e p.2 && !p.1.columned)).map mkItem

/-- `toTree`'s `columnedFormats` local: exact-window pairs of columned
formatters, as items. -/
def treeColumnedFormats (s e : Nat) (flat : List (Formatter × FormatRange)) : List FormatItem :=
  (flat.filter (fun p => exactR s e p.2 && p.1.columned)).map mkItem

/-- The ranges each store entry keeps for the recursive calls: everything
except the exact-window ranges of non-columned formatters (the source
deletes an entry that loses all its ranges). -/
def treeKeptMap (s e : Nat) (m : FormatMap) : FormatMap :=
  m.filterMap (fun p =>
    let kept := p.2.filter (fun r => !(exactR s e r && !p.1.columned))
    if kept.isEmpty && !p.2.isEmpty then none else some (p.1, kept))

/-- The number of ranges left in the kept map (`toTree`'s loop counting
`ranges.length` over the surviving entries). -/
def treeRangeCount (km : FormatMap) : Nat :=
  (km.map (fun p => p.2.length)).sum

/-- Fuelled version of the source's recursive `Format.toTree`.  Every
recursive call strictly shrinks the window `[s, e)` (shown by the lemmas
below), so the fuel `e - s` supplied by `toTree` always suffices and the
out-of-fuel branch is unreachable from `toTree`. -/
def toTreeAux : Nat → Format → Nat → Nat → FormatTree
  | 0, _, s, e => .mk s e [] []
  | fuel + 1, fmt, s, e =>
    let copy := extract fmt s e
    let flat := treeFlat copy.map
    let scanned := flat.foldl (scanStep s e) (e, s)
    let formats := treeFormats s e flat
    let columnedFormats := treeColumnedFormats s e flat
    let keptMap : FormatMap := treeKeptMap s e copy.map
    let copyRest : Format := { slotLength := copy.slotLength, map := keptMap }
    let rangeCount := treeRangeCount keptMap
    if rangeCount > columnedFormats.length then
      let nextStart := scanned.1
      let nextEnd := scanned.2
      let leading : List FormatTree :=
        if s < nextStart then
          if columnedFormats.isEmpty then [.mk s nextStart [] []]
          else [toTreeAux fuel (extract copyRest s nextStart) s nextStart]
        else []
      let middle := pushSplice (toTreeAux fuel copyRest nextStart nextEnd)
      let trailing :=
        if nextEnd < e then pushSplice (toTreeAux fuel (extract copyRest nextEnd e) nextEnd e)
        else []
      .mk s e formats (leading ++ middle ++ trailing)
    else
      .mk s e (formats ++ columnedFormats) []

/-- Source `Format.toTree`. -/
def toTree (fmt : Format) (s e : Nat) : FormatTree := toTreeAux (e - s) fmt s e

mutual

/-- The leaf spans of a format tree, in left-to-right order: a node
without children contributes its own span, a node with children the
concatenation of its children's leaf spans. -/
def leafSpans : FormatTree → List (Nat × Nat)
  | .mk s e _ [] => [(s, e)]
  | .mk _ _ _ (c :: cs) => leafSpans c ++ leafSpansList cs

/-- Leaf spans of a list of trees. -/
def leafSpansList : List FormatTree → List (Nat × Nat)
  | [] => []
  | t :: ts => leafSpans t ++ leafSpansList ts

end

/-- `chained s l e` holds when the spans in `l` tile `[s, e)` exactly:
the first span starts at `s`, each span runs forward and starts where the
previous one ended, and the last span ends at `e` — contiguity, absence
of overlaps and gaps, and exact union in one statement. -/
def chained : Nat → List (Nat × Nat) → Nat → Prop
  | s, [], e => s = e
  | s, (a, b) :: rest, e => a = s ∧ s ≤ b ∧ chained b rest e

instance instDecChained : ∀ s l e, Decidable (chained s l e)
  | s, [], e => inferInstanceAs (Decidable (s = e))
  | s, (a, b) :: rest, e =>
    have : Decidable (chained b rest e) := instDecChained b rest e
    inferInstanceAs (Decidable (_ ∧ _ ∧ _))

/-! Concrete formatters and stores used by the specification's scenarios:
`boldFormatter` and `italicFormatter` are the source's
`InlineElementFormatter` instances (inline scope, no `overlap`, `columned
= false`); scenario A starts from an empty store over a slot of length
ten. -/

/-- The source's `boldFormatter` (inline, non-overlap, not columned). -/
def boldFormatter : Formatter := ⟨0, "bold", FormatType.Inline, false, false⟩

/-- The source's `italicFormatter` (inline, non-overlap, not columned). -/
def italicFormatter : Formatter := ⟨1, "italic", FormatType.Inline, false, false⟩

/-- The boolean value `true` that the inline tag formatters store. -/
def vTrue : FormatValue := .prim (.bool true)

/-- Scenario A of the specification: slot length ten,
`merge(bold, {2,5,true})` then `merge(bold, {4,8,true})`. -/
def scenarioA : Format :=
  merge (merge ⟨10, []⟩ boldFormatter (.range ⟨2, 5, vTrue⟩)) boldFormatter (.range ⟨4, 8, vTrue⟩)

/-- Scenario B: scenario A followed by `stretch(3, 1)`. -/
def scenarioB : Format := stretch scenarioA 3 1

/-- Scenario C: scenario B followed by `shrink(3, 2)`. -/
def scenarioC : Format := shrink scenarioB 3 2

/-- C4: with slot length 10 and the non-overlap inline `bold` formatter,
`merge(bold, {2,5,true})` followed by `merge(bold, {4,8,true})` leaves
exactly one stored range for `bold`, namely `{2,8,true}`: the second
range is painted over the first and the interval re-flattened into
maximal coalesced runs. -/
theorem merge_scenarioA_paints_and_coalesces :
    mapGet scenarioA.map boldFormatter = some [⟨2, 8, vTrue⟩] := by decide

/-- The stretch rule exactly as claim C5 words it: a range with
`endIndex < index` is untouched; a range with `endIndex ≥ index` has
`count` added to its `endIndex`; a range additionally having
`startIndex ≥ index` has `count` added to its `startIndex`. -/
def stretchRangeSpec (index count : Nat) (r : FormatRange) : FormatRange :=
  if r.endIndex < index then r
  else if r.startIndex ≥ index then ⟨r.startIndex + count, r.endIndex + count, r.value⟩
  else ⟨r.startIndex, r.endIndex + count, r.value⟩

/-- C5: `stretch(index, count)` transforms every stored range of every
formatter by the rule of `stretchRangeSpec`, and in particular —
continuing scenario A — `stretch(3,1)` turns the bold range `{2,8,true}`
into `{2,9,true}`. -/
theorem stretch_shifts_ranges :
    (∀ (fmt : Format) (index count : Nat),
      (stretch fmt index count).map
        = fmt.map.map (fun e => (e.1, e.2.map (stretchRangeSpec index count)))) ∧
    mapGet scenarioB.map boldFormatter = some [⟨2, 9, vTrue⟩] := by
  constructor
  · intro fmt index count
    simp only [stretch]
    apply List.map_congr_left
    intro e _
    refine congrArg (fun l => (e.1, l)) ?_
    apply List.map_congr_left
    intro r _
    simp only [stretchRange, stretchRangeSpec]
    by_cases h1 : r.endIndex < index
    · simp [h1]
    · by_cases h2 : r.startIndex ≥ index <;> simp [h1, h2]
  · decide

/-- The shrink rule exactly as claim C6 words it: a range ending at or
before `startIndex` is untouched; otherwise its `endIndex` is reduced by
up to `count` but never below `startIndex`, and its `startIndex` is
reduced symmetrically (when it lies beyond `startIndex`) but never below
`startIndex`. -/
def shrinkRangeSpec (startIndex count : Nat) (r : FormatRange) : FormatRange :=
  if r.endIndex ≤ startIndex then r
  else
    ⟨if startIndex < r.startIndex then max startIndex (r.startIndex - count) else r.startIndex,
     max startIndex (r.endIndex - count),
     r.value⟩

/-- C6: `shrink(startIndex, count)` applies the rule of
`shrinkRangeSpec` to every stored range and then re-normalizes every
formatter's range list — with the same `normalizeFormatRange` that
`merge` uses — dropping formatters whose list normalizes to empty; in
particular, continuing scenario B, `shrink(3,2)` turns the bold range
`{2,9,true}` into `{2,7,true}`. -/
theorem shrink_shifts_and_renormalizes :
    (∀ (fmt : Format) (startIndex count : Nat),
      (shrink fmt startIndex count).map
        = (fmt.map.map (fun e => (e.1, e.2.map (shrinkRangeSpec startIndex count)))).filterMap
            (fun e =>
              let newRanges := normalizeFormatRange fmt.slotLength e.1 e.2 none
              if newRanges.isEmpty then none else some (e.1, newRanges))) ∧
    mapGet scenarioC.map boldFormatter = some [⟨2, 7, vTrue⟩] := by
  constructor
  · intro fmt startIndex count
    simp only [shrink]
    refine congrArg (fun m => List.filterMap _ m) ?_
    apply List.map_congr_left
    intro e _
    refine congrArg (fun l => (e.1, l)) ?_
    apply List.map_congr_left
    intro r _
    simp only [shrinkRange, shrinkRangeSpec]
  · decide

/-- C10: `discard(formatter, startIndex, endIndex)` returns the store
itself and leaves its formatter → ranges mapping exactly as it was: the
normalized ranges it computes are never written back. -/
theorem discard_leaves_store_unchanged :
    ∀ (fmt : Format) (formatter : Formatter) (startIndex endIndex : Nat),
      discard fmt formatter startIndex endIndex = fmt ∧
      (discard fmt formatter startIndex endIndex).map = fmt.map := by
  intro fmt formatter startIndex endIndex
  unfold discard
  cases mapGet fmt.map formatter <;> simp

/-- C2 (failing run of the claim): for the non-overlap inline `bold`
formatter, `merge(bold, {2,5,true})` followed by
`merge(bold, {2,5,CleanRule(true)})` does NOT remove the formatting: the
store still maps `bold` to `[{2,5,true}]`, because the source's
non-overlap clean branch tests `Format.equal(item, value)` against the
`CleanFormatRule` object itself rather than its inner value, so no value
group ever matches. -/
theorem merge_cleanRule_fails_to_remove :
    mapGet (merge (merge ⟨10, []⟩ boldFormatter (.range ⟨2, 5, vTrue⟩))
        boldFormatter (.range ⟨2, 5, .clean vTrue⟩)).map boldFormatter
      = some [⟨2, 5, vTrue⟩] := by decide

/-! Canonical stored values.  The data model (§3 of the specification)
stores primitive scalars or flat records as per-position values; `null`
means "no formatting" and the clean wrapper is an instruction, not a
stored value.  JavaScript object key order is unobservable up to the deep
equality used by the specification, so each record object is represented
by its key-sorted form. -/

/-- A non-void value the store can hold at a position, in canonical form:
a primitive, or a flat record whose field list is strictly sorted by
key. -/
def storedValue : FormatValue → Prop
  | .prim _ => True
  | .record fs => List.Chain' (fun a b => a.1 < b.1) fs
  | _ => False

instance : ∀ v, Decidable (storedValue v)
  | .prim _ => inferInstanceAs (Decidable True)
  | .record fs => inferInstanceAs (Decidable (List.Chain' _ fs))
  | .null => inferInstanceAs (Decidable False)
  | .clean _ => inferInstanceAs (Decidable False)

instance : IsTrans (String × JSPrim) (fun a b => a.1 < b.1) :=
  ⟨fun _ _ _ h1 h2 => lt_trans h1 h2⟩

theorem lookup_some_mem {α β : Type} [BEq α] [LawfulBEq α] {l : List (α × β)} {k : α} {v : β}
    (h : List.lookup k l = some v) : (k, v) ∈ l := by
  induction l with
  | nil => simp [List.lookup] at h
  | cons kv rest ih =>
    rw [List.lookup] at h
    by_cases hk : (k == kv.1) = true
    · have hk' : k = kv.1 := eq_of_beq hk
      simp [hk] at h
      exact List.mem_cons.mpr (Or.inl (by cases kv; simp_all))
    · simp [hk] at h
      exact List.mem_cons_of_mem kv (ih h)

theorem lookup_cons_ne {α β : Type} [BEq α] [LawfulBEq α] {k k' : α} {v : β} {l : List (α × β)}
    (h : ¬ k = k') : List.lookup k ((k', v) :: l) = List.lookup k l := by
  rw [List.lookup]
  simp [beq_eq_false_iff_ne.mpr h]

theorem lookup_map_snd {α β γ : Type} [BEq α] (f : β → γ) (l : List (α × β)) (k : α) :
    List.lookup k (l.map (fun kv => (kv.1, f kv.2))) = (List.lookup k l).map f := by
  induction l with
  | nil => simp [List.lookup]
  | cons kv rest ih =>
    rw [List.map_cons, List.lookup, List.lookup]
    by_cases hk : k == kv.1 <;> simp [hk, ih]

theorem chain'_keys_nodup {fs : List (String × JSPrim)}
    (h : List.Chain' (fun a b => a.1 < b.1) fs) : (fs.map Prod.fst).Nodup := by
  have hp : fs.Pairwise (fun a b => a.1 < b.1) := by
    rw [List.chain'_iff_pairwise] at h
    exact h
  have : (fs.map Prod.fst).Pairwise (· < ·) := List.Pairwise.map _ (fun a b hab => hab) hp
  exact this.imp (fun hab => ne_of_lt hab)

theorem lookup_of_nodup_keys {l : List (String × JSPrim)} (hn : (l.map Prod.fst).Nodup)
    {kv : String × JSPrim} (hm : kv ∈ l) : List.lookup kv.1 l = some kv.2 := by
  induction l with
  | nil => simp at hm
  | cons a rest ih =>
    rw [List.map_cons] at hn
    rcases List.mem_cons.mp hm with h | h
    · subst h
      rw [List.lookup]
      simp
    · have hne : kv.1 ≠ a.1 := by
        intro he
        have := (List.nodup_cons.mp hn).1
        exact this (he ▸ List.mem_map_of_mem Prod.fst h)
      rw [List.lookup]
      simp only [beq_eq_false_iff_ne.mpr hne]
      exact ih (List.nodup_cons.mp hn).2 h

/-- Key-sorted flat association lists are determined by their length and
the left-to-right lookup property `Format.equal` verifies. -/
theorem sorted_assoc_ext : ∀ (fs gs : List (String × JSPrim)),
    List.Chain' (fun a b => a.1 < b.1) fs →
    List.Chain' (fun a b => a.1 < b.1) gs →
    fs.length = gs.length →
    (∀ kv ∈ fs, List.lookup kv.1 gs = some kv.2) →
    fs = gs := by
  intro fs
  induction fs with
  | nil =>
    intro gs _ _ hlen _
    cases gs with
    | nil => rfl
    | cons g gs' => simp at hlen
  | cons a fs' ih =>
    intro gs hcf hcg hlen hlook
    cases gs with
    | nil => simp at hlen
    | cons b gs' =>
      have hkeysub : ∀ x ∈ (a :: fs').map Prod.fst, x ∈ (b :: gs').map Prod.fst := by
        intro x hx
        rcases List.mem_map.mp hx with ⟨kv, hkv, hx'⟩
        have := lookup_some_mem (hlook kv hkv)
        exact hx' ▸ List.mem_map_of_mem Prod.fst this
      have hnf := chain'_keys_nodup hcf
      have hng := chain'_keys_nodup hcg
      have hkeyrev : ∀ x ∈ (b :: gs').map Prod.fst, x ∈ (a :: fs').map Prod.fst := by
        intro x hx
        have hsub : ((a :: fs').map Prod.fst).toFinset ⊆ ((b :: gs').map Prod.fst).toFinset := by
          intro y hy
          exact List.mem_toFinset.mpr (hkeysub y (List.mem_toFinset.mp hy))
        have hcard : ((b :: gs').map Prod.fst).toFinset.card ≤ ((a :: fs').map Prod.fst).toFinset.card := by
          rw [List.toFinset_card_of_nodup hnf, List.toFinset_card_of_nodup hng]
          have hl' := hlen
          simp only [List.length_cons] at hl'
          simp only [List.length_map, List.length_cons]
          omega
        have := Finset.eq_of_subset_of_card_le hsub hcard
        exact List.mem_toFinset.mp (this ▸ List.mem_toFinset.mpr hx)
      have hpf : (a :: fs').Pairwise (fun x y => x.1 < y.1) := List.chain'_iff_pairwise.mp hcf
      have hpg : (b :: gs').Pairwise (fun x y => x.1 < y.1) := List.chain'_iff_pairwise.mp hcg
      have hab : a.1 = b.1 := by
        have hbmem : b.1 ∈ (a :: fs').map Prod.fst := hkeyrev b.1 (by simp)
        have hamem : a.1 ∈ (b :: gs').map Prod.fst := hkeysub a.1 (by simp)
        have h1 : a.1 ≤ b.1 := by
          rcases List.mem_map.mp hbmem with ⟨kv, hkv, he⟩
          rcases List.mem_cons.mp hkv with h | h
          · rw [h] at he
            exact le_of_eq he
          · exact le_of_lt (he ▸ (List.pairwise_cons.mp hpf).1 kv h)
        have h2 : b.1 ≤ a.1 := by
          rcases List.mem_map.mp hamem with ⟨kv, hkv, he⟩
          rcases List.mem_cons.mp hkv with h | h
          · rw [h] at he
            exact le_of_eq he
          · exact le_of_lt (he ▸ (List.pairwise_cons.mp hpg).1 kv h)
        exact le_antisymm h1 h2
      have hvab : a.2 = b.2 := by
        have hv := hlook a (by simp)
        simp [List.lookup, hab] at hv
        exact hv.symm
      have hhead : a = b := by
        cases a; cases b
        simp_all
      subst hhead
      have htail : fs' = gs' := by
        apply ih gs' hcf.tail hcg.tail (by simpa using hlen)
        intro kv hkv
        have hne : ¬ kv.1 = a.1 := by
          intro he
          have := (List.pairwise_cons.mp hpf).1 kv hkv
          rw [he] at this
          exact lt_irrefl _ this
        have := hlook kv (List.mem_cons_of_mem a hkv)
        rwa [lookup_cons_ne hne] at this
      rw [htail]

/-- `Format.equal` is reflexive on canonical stored values. -/
theorem equal_refl_stored {v : FormatValue} (h : storedValue v) : equal v v = true := by
  cases v with
  | prim p => simp [equal, jsStrictEq]
  | record fs =>
    have hn : (fs.map Prod.fst).Nodup := chain'_keys_nodup h
    simp only [equal, jsStrictEq, objFields]
    rw [if_neg (by simp)]
    simp only [beq_self_eq_true, Bool.true_and]
    rw [List.all_eq_true]
    intro kv hkv
    rcases List.mem_map.mp hkv with ⟨kv0, hkv0, he⟩
    have hmem : kv.1 ∈ (fs.map (fun kv => (kv.1, FormatValue.prim kv.2))).map Prod.fst := by
      exact List.mem_map_of_mem Prod.fst hkv
    rw [Bool.and_eq_true]
    constructor
    · exact List.elem_iff.mpr hmem
    · rw [lookup_map_snd FormatValue.prim fs kv.1]
      have : List.lookup kv.1 fs = some kv0.2 := by
        rw [← he]
        exact lookup_of_nodup_keys hn hkv0
      rw [← he] at this ⊢
      simp [this, jsStrictEq]
  | null => exact absurd h (by simp [storedValue])
  | clean w => exact absurd h (by simp [storedValue])

/-- On canonical stored values, `Format.equal` implies equality. -/
theorem equal_eq_of_stored : ∀ {x y : FormatValue}, storedValue x → storedValue y →
    equal x y = true → x = y := by
  intro x y hx hy h
  cases x with
  | null => exact absurd hx (by simp [storedValue])
  | clean w => exact absurd hx (by simp [storedValue])
  | prim p =>
    cases y with
    | null => exact absurd hy (by simp [storedValue])
    | clean w => exact absurd hy (by simp [storedValue])
    | prim q =>
      simp only [equal, jsStrictEq] at h
      by_cases hpq : p == q
      · rw [eq_of_beq hpq]
      · rw [if_neg (by simp [hpq])] at h
        simp [objFields] at h
    | record gs =>
      simp only [equal, jsStrictEq, objFields] at h
      rw [if_neg (by simp)] at h
      simp at h
  | record fs =>
    cases y with
    | null => exact absurd hy (by simp [storedValue])
    | clean w => exact absurd hy (by simp [storedValue])
    | prim q =>
      simp only [equal, jsStrictEq, objFields] at h
      rw [if_neg (by simp)] at h
      simp at h
    | record gs =>
      simp only [equal, jsStrictEq, objFields] at h
      rw [if_neg (by simp)] at h
      rw [Bool.and_eq_true, List.all_eq_true] at h
      obtain ⟨hlen, hall⟩ := h
      have hlen' : fs.length = gs.length := by simpa using hlen
      have hlook : ∀ kv ∈ fs, List.lookup kv.1 gs = some kv.2 := by
        intro kv hkv
        have hmem : ((kv.1 : String), FormatValue.prim kv.2)
            ∈ fs.map (fun kv => (kv.1, FormatValue.prim kv.2)) :=
          List.mem_map.mpr ⟨kv, hkv, rfl⟩
        have hkv2 := hall _ hmem
        rw [Bool.and_eq_true] at hkv2
        obtain ⟨_, hlk⟩ := hkv2
        rw [lookup_map_snd FormatValue.prim gs kv.1] at hlk
        cases hl : List.lookup kv.1 gs with
        | none => rw [hl] at hlk; simp at hlk
        | some w =>
          rw [hl] at hlk
          simp only [Option.map_some', jsStrictEq] at hlk
          rw [eq_of_beq hlk]
      have := sorted_assoc_ext fs gs hx hy hlen' hlook
      rw [this]

theorem isVoid_eq_true_iff {x : FormatValue} : isVoid x = true ↔ x = FormatValue.null := by
  cases x <;> simp [isVoid]

theorem listSetLen_of_le {l : List FormatValue} {n : Nat} (h : l.length ≤ n) :
    listSetLen l n = l ++ List.replicate (n - l.length) FormatValue.null := by
  rw [listSetLen, List.take_of_length_le h]

theorem listFill_append (A B : List FormatValue) (v : FormatValue) :
    ∀ s e, listFill (A ++ B) v s e
      = listFill A v s e ++ listFill B v (s - A.length) (e - A.length) := by
  induction A with
  | nil => intro s e; simp [listFill]
  | cons x xs ih =>
    intro s e
    simp only [List.cons_append, listFill, List.length_cons, List.append_eq]
    rw [ih (s - 1) (e - 1)]
    have h1 : s - 1 - xs.length = s - (xs.length + 1) := by omega
    have h2 : e - 1 - xs.length = e - (xs.length + 1) := by omega
    rw [h1, h2]

theorem listFill_of_le (v : FormatValue) :
    ∀ (A : List FormatValue) (s e : Nat), A.length ≤ s → listFill A v s e = A := by
  intro A
  induction A with
  | nil => intro s e _; simp [listFill]
  | cons x xs ih =>
    intro s e h
    simp only [List.length_cons] at h
    simp only [listFill]
    rw [if_neg (by omega), ih (s - 1) (e - 1) (by omega)]

theorem listFill_replicate_null (v : FormatValue) :
    ∀ (m s : Nat), s ≤ m →
      listFill (List.replicate m FormatValue.null) v s m
        = List.replicate s FormatValue.null ++ List.replicate (m - s) v := by
  intro m
  induction m with
  | zero => intro s h; simp_all [listFill]
  | succ m ih =>
    intro s h
    rw [List.replicate_succ]
    cases s with
    | zero =>
      simp only [listFill, Nat.zero_sub, Nat.add_sub_cancel]
      rw [if_pos (show True ∧ 0 < m + 1 from ⟨trivial, Nat.succ_pos m⟩)]
      rw [ih 0 (by omega)]
      simp [List.replicate_succ]
    | succ t =>
      simp only [listFill, Nat.add_sub_cancel]
      have hcond : ¬((t + 1 : Nat) = 0 ∧ 0 < m + 1) := by
        intro hc
        exact Nat.succ_ne_zero t hc.1
      rw [if_neg hcond]
      rw [ih t (by omega)]
      simp only [Nat.succ_sub_succ]
      rw [List.replicate_succ]
      simp

theorem tileStep_eq {A : List FormatValue} {r : FormatRange}
    (h1 : A.length ≤ r.startIndex) (h2 : r.startIndex ≤ r.endIndex) :
    tileStep A r
      = A ++ List.replicate (r.startIndex - A.length) FormatValue.null
          ++ List.replicate (r.endIndex - r.startIndex) r.value := by
  have he : A.length ≤ r.endIndex := le_trans h1 h2
  rw [tileStep, max_eq_right he, listSetLen_of_le he,
    listFill_append A (List.replicate (r.endIndex - A.length) FormatValue.null) r.value,
    listFill_of_le r.value A _ _ h1]
  have hm : r.endIndex - A.length ≥ r.startIndex - A.length := by omega
  have := listFill_replicate_null r.value (r.endIndex - A.length) (r.startIndex - A.length) hm
  rw [this]
  have h3 : r.endIndex - A.length - (r.startIndex - A.length) = r.endIndex - r.startIndex := by omega
  rw [h3, List.append_assoc]

theorem tileStep_pad {A : List FormatValue} {r : FormatRange}
    (h1 : A.length + 1 ≤ r.startIndex) (h2 : r.startIndex ≤ r.endIndex) :
    tileStep (A ++ [FormatValue.null]) r = tileStep A r := by
  have hA : (A ++ [FormatValue.null]).length = A.length + 1 := by simp
  rw [tileStep_eq (by rw [hA]; omega) h2, tileStep_eq (by omega) h2, hA]
  have h3 : r.startIndex - A.length = (r.startIndex - (A.length + 1)) + 1 := by omega
  rw [h3, List.replicate_succ]
  simp [List.append_assoc]

theorem toRangesAux_append : ∀ (v : List FormatValue) (i : Nat) (cur : Option FormatRange)
    (done : List FormatRange), toRangesAux v i cur done = done ++ toRangesAux v i cur [] := by
  intro v
  induction v with
  | nil => intro i cur done; simp [toRangesAux]
  | cons item rest ih =>
    intro i cur done
    by_cases hv : isVoid item = true
    · simp only [toRangesAux, if_pos hv]
      rw [ih (i + 1) none (done ++ cur.toList), ih (i + 1) none ([] ++ cur.toList)]
      simp [List.append_assoc]
    · simp only [toRangesAux, if_neg hv]
      cases cur with
      | none => exact ih (i + 1) (some ⟨i, i + 1, item⟩) done
      | some r =>
        by_cases he : equal r.value item = true
        · simp only [if_pos he]
          exact ih (i + 1) _ done
        · simp only [if_neg he]
          rw [ih (i + 1) _ (done ++ [r]), ih (i + 1) _ ([] ++ [r])]
          simp [List.append_assoc]

theorem toRangesAux_length : ∀ (v : List FormatValue) (i : Nat) (cur : Option FormatRange)
    (done : List FormatRange),
    done.length + cur.toList.length ≤ (toRangesAux v i cur done).length := by
  intro v
  induction v with
  | nil => intro i cur done; simp [toRangesAux]
  | cons item rest ih =>
    intro i cur done
    by_cases hv : isVoid item = true
    · simp only [toRangesAux, if_pos hv]
      have := ih (i + 1) none (done ++ cur.toList)
      simp only [Option.toList_none, List.length_nil, List.length_append] at this ⊢
      omega
    · simp only [toRangesAux, if_neg hv]
      cases cur with
      | none =>
        have := ih (i + 1) (some ⟨i, i + 1, item⟩) done
        simp only [Option.toList_some, Option.toList_none, List.length_cons,
          List.length_nil] at this ⊢
        omega
      | some r =>
        by_cases he : equal r.value item = true
        · simp only [if_pos he]
          have := ih (i + 1) (some { r with endIndex := i + 1 }) done
          simpa using this
        · simp only [if_neg he]
          have := ih (i + 1) (some ⟨i, i + 1, item⟩) (done ++ [r])
          simp only [Option.toList_some, List.length_cons, List.length_append,
            List.length_cons, List.length_nil] at this ⊢
          omega

theorem toRangesAux_ne_nil : ∀ (v : List FormatValue) (i : Nat),
    (∃ x ∈ v, ¬ isVoid x = true) → toRangesAux v i none [] ≠ [] := by
  intro v
  induction v with
  | nil => intro i h; simp at h
  | cons item rest ih =>
    intro i h
    by_cases hv : isVoid item = true
    · simp only [toRangesAux, if_pos hv, Option.toList_none, List.append_nil, List.nil_append]
      apply ih
      rcases h with ⟨x, hx, hnv⟩
      rcases List.mem_cons.mp hx with h' | h'
      · exact absurd (h' ▸ hv) hnv
      · exact ⟨x, h', hnv⟩
    · simp only [toRangesAux, if_neg hv]
      intro hcontra
      have := toRangesAux_length rest (i + 1) (some ⟨i, i + 1, item⟩) []
      rw [hcontra] at this
      simp at this

theorem toRangesAux_bounds (lo : Nat) : ∀ (v : List FormatValue) (i : Nat)
    (cur : Option FormatRange) (done : List FormatRange), lo ≤ i →
    (∀ r ∈ done, lo ≤ r.startIndex ∧ r.startIndex < r.endIndex) →
    (∀ c, cur = some c → lo ≤ c.startIndex ∧ c.startIndex < c.endIndex ∧ c.endIndex ≤ i) →
    ∀ r' ∈ toRangesAux v i cur done, lo ≤ r'.startIndex ∧ r'.startIndex < r'.endIndex := by
  intro v
  induction v with
  | nil =>
    intro i cur done hi hdone hcur r' hr'
    simp only [toRangesAux] at hr'
    rcases List.mem_append.mp hr' with h | h
    · exact hdone r' h
    · cases cur with
      | none => simp at h
      | some c =>
        simp only [Option.toList_some, List.mem_singleton] at h
        subst h
        exact ⟨(hcur r' rfl).1, (hcur r' rfl).2.1⟩
  | cons item rest ih =>
    intro i cur done hi hdone hcur r' hr'
    by_cases hv : isVoid item = true
    · simp only [toRangesAux, if_pos hv] at hr'
      refine ih (i + 1) none (done ++ cur.toList) (by omega) ?_ (by simp) r' hr'
      intro r hr
      rcases List.mem_append.mp hr with h | h
      · exact hdone r h
      · cases cur with
        | none => simp at h
        | some c =>
          simp only [Option.toList_some, List.mem_singleton] at h
          subst h
          exact ⟨(hcur r rfl).1, (hcur r rfl).2.1⟩
    · simp only [toRangesAux, if_neg hv] at hr'
      cases cur with
      | none =>
        refine ih (i + 1) (some ⟨i, i + 1, item⟩) done (by omega) hdone ?_ r' hr'
        intro c hc
        injection hc with hc
        subst hc
        exact ⟨hi, Nat.lt_succ_self i, Nat.le_refl (i + 1)⟩
      | some r =>
        by_cases he : equal r.value item = true
        · simp only [if_pos he] at hr'
          refine ih (i + 1) _ done (by omega) hdone ?_ r' hr'
          intro c hc
          injection hc with hc
          subst hc
          obtain ⟨ha, hb, hcend⟩ := hcur r rfl
          exact ⟨ha, show r.startIndex < i + 1 by omega, Nat.le_refl (i + 1)⟩
        · simp only [if_neg he] at hr'
          refine ih (i + 1) (some ⟨i, i + 1, item⟩) (done ++ [r]) (by omega) ?_ ?_ r' hr'
          · intro r0 hr0
            rcases List.mem_append.mp hr0 with h | h
            · exact hdone r0 h
            · simp only [List.mem_singleton] at h
              subst h
              exact ⟨(hcur r0 rfl).1, (hcur r0 rfl).2.1⟩
          · intro c hc
            injection hc with hc
            subst hc
            exact ⟨hi, Nat.lt_succ_self i, Nat.le_refl (i + 1)⟩

theorem toRangesAux_cons_void {item : FormatValue} {rest : List FormatValue} {i : Nat}
    {cur : Option FormatRange} {done : List FormatRange} (hv : isVoid item = true) :
    toRangesAux (item :: rest) i cur done
      = toRangesAux rest (i + 1) none (done ++ cur.toList) := by
  simp [toRangesAux, hv]

theorem toRangesAux_cons_new {item : FormatValue} {rest : List FormatValue} {i : Nat}
    {done : List FormatRange} (hv : isVoid item = false) :
    toRangesAux (item :: rest) i none done
      = toRangesAux rest (i + 1) (some ⟨i, i + 1, item⟩) done := by
  simp [toRangesAux, hv]

theorem toRangesAux_cons_ext {item : FormatValue} {rest : List FormatValue} {i : Nat}
    {r : FormatRange} {done : List FormatRange} (hv : isVoid item = false)
    (he : equal r.value item = true) :
    toRangesAux (item :: rest) i (some r) done
      = toRangesAux rest (i + 1) (some { r with endIndex := i + 1 }) done := by
  simp [toRangesAux, hv, he]

theorem toRangesAux_cons_brk {item : FormatValue} {rest : List FormatValue} {i : Nat}
    {r : FormatRange} {done : List FormatRange} (hv : isVoid item = false)
    (he : equal r.value item = false) :
    toRangesAux (item :: rest) i (some r) done
      = toRangesAux rest (i + 1) (some ⟨i, i + 1, item⟩) (done ++ [r]) := by
  simp [toRangesAux, hv, he]

/-- Heart of the round-trip: refilling the ranges `toRanges` scans off a
dense array reproduces the array.  Stated for both scan states — no open
run (with the array read so far as accumulator) and an open run of `m`
copies of a stored value `x`. -/
theorem tileFold_toRangesAux : ∀ (v : List FormatValue),
    (∀ x ∈ v, isVoid x = true ∨ storedValue x) →
    (∀ z, v.getLast? = some z → isVoid z = false) →
    (∀ A : List FormatValue,
       List.foldl tileStep A (toRangesAux v A.length none []) = A ++ v) ∧
    (∀ (A : List FormatValue) (m : Nat) (x : FormatValue), storedValue x → 0 < m →
       List.foldl tileStep A
           (toRangesAux v (A.length + m) (some ⟨A.length, A.length + m, x⟩) [])
         = A ++ List.replicate m x ++ v) := by
  intro v
  induction v with
  | nil =>
    intro _ _
    constructor
    · intro A
      simp [toRangesAux]
    · intro A m x hx hm
      simp only [toRangesAux, Option.toList_some, List.nil_append, List.foldl_cons,
        List.foldl_nil]
      rw [tileStep_eq (r := ⟨A.length, A.length + m, x⟩) (Nat.le_refl A.length)
        (Nat.le_add_right A.length m)]
      simp
  | cons item rest ihv =>
    intro hstored htrail
    have hstored' : ∀ x ∈ rest, isVoid x = true ∨ storedValue x := fun x hx =>
      hstored x (List.mem_cons_of_mem item hx)
    have htrail' : ∀ z, rest.getLast? = some z → isVoid z = false := by
      intro z hz
      cases rest with
      | nil => simp at hz
      | cons r0 rest' => exact htrail z (by rwa [List.getLast?_cons_cons])
    have ih := ihv hstored' htrail'
    constructor
    · intro A
      by_cases hv : isVoid item = true
      · have hitem : item = FormatValue.null := isVoid_eq_true_iff.mp hv
        cases rest with
        | nil =>
          exfalso
          have := htrail item (by simp)
          rw [hv] at this
          simp at this
        | cons r0 rest' =>
          rw [toRangesAux_cons_void hv]
          simp only [Option.toList_none, List.append_nil]
          have hex : ∃ y ∈ r0 :: rest', ¬ isVoid y = true := by
            have hne : (r0 :: rest') ≠ [] := by simp
            have hz := List.getLast?_eq_getLast (r0 :: rest') hne
            have hnv := htrail' _ hz
            exact ⟨_, List.getLast_mem hne, by simp [hnv]⟩
          have hXne : toRangesAux (r0 :: rest') (A.length + 1) none [] ≠ [] :=
            toRangesAux_ne_nil _ _ hex
          obtain ⟨xr, X', hXc⟩ := List.exists_cons_of_ne_nil hXne
          have hb := toRangesAux_bounds (A.length + 1) (r0 :: rest') (A.length + 1)
            none [] (le_refl _) (by simp) (by simp) xr (by rw [hXc]; simp)
          have hpart1 := ih.1 (A ++ [FormatValue.null])
          have hlenA : (A ++ [FormatValue.null]).length = A.length + 1 := by simp
          rw [hlenA] at hpart1
          rw [hXc] at hpart1 ⊢
          simp only [List.foldl_cons] at hpart1 ⊢
          rw [← tileStep_pad (A := A) (r := xr) hb.1 (le_of_lt hb.2)]
          rw [hpart1, hitem]
          simp
      · have hst : storedValue item := (hstored item (by simp)).resolve_left hv
        have hv' : isVoid item = false := by
          revert hv
          cases isVoid item <;> simp
        rw [toRangesAux_cons_new hv']
        have := ih.2 A 1 item hst (by omega)
        simp only [List.replicate_one] at this
        rw [this]
        simp
    · intro A m x hx hm
      by_cases hv : isVoid item = true
      · have hitem : item = FormatValue.null := isVoid_eq_true_iff.mp hv
        rw [toRangesAux_cons_void hv]
        simp only [Option.toList_some, List.nil_append]
        rw [toRangesAux_append rest (A.length + m + 1) none
          [⟨A.length, A.length + m, x⟩]]
        rw [List.foldl_append]
        simp only [List.foldl_cons, List.foldl_nil]
        have hstep : tileStep A ⟨A.length, A.length + m, x⟩ = A ++ List.replicate m x := by
          rw [tileStep_eq (r := ⟨A.length, A.length + m, x⟩) (Nat.le_refl A.length)
            (Nat.le_add_right A.length m)]
          simp
        rw [hstep]
        cases rest with
        | nil =>
          exfalso
          have := htrail item (by simp)
          rw [hv] at this
          simp at this
        | cons r0 rest' =>
          have hex : ∃ y ∈ r0 :: rest', ¬ isVoid y = true := by
            have hne : (r0 :: rest') ≠ [] := by simp
            have hz := List.getLast?_eq_getLast (r0 :: rest') hne
            have hnv := htrail' _ hz
            exact ⟨_, List.getLast_mem hne, by simp [hnv]⟩
          have hXne : toRangesAux (r0 :: rest') (A.length + m + 1) none [] ≠ [] :=
            toRangesAux_ne_nil _ _ hex
          obtain ⟨xr, X', hXc⟩ := List.exists_cons_of_ne_nil hXne
          have hb := toRangesAux_bounds (A.length + m + 1) (r0 :: rest') (A.length + m + 1)
            none [] (le_refl _) (by simp) (by simp) xr (by rw [hXc]; simp)
          have hpart1 := ih.1 (A ++ List.replicate m x ++ [FormatValue.null])
          have hlenA : (A ++ List.replicate m x ++ [FormatValue.null]).length
              = A.length + m + 1 := by
            simp [Nat.add_assoc]
          rw [hlenA] at hpart1
          rw [hXc] at hpart1 ⊢
          simp only [List.foldl_cons] at hpart1 ⊢
          have hb1 : (A ++ List.replicate m x).length + 1 ≤ xr.startIndex := by
            rw [List.length_append, List.length_replicate]
            omega
          rw [← tileStep_pad (A := A ++ List.replicate m x) (r := xr) hb1 (le_of_lt hb.2)]
          rw [hpart1, hitem]
          simp
      · have hst : storedValue item := (hstored item (by simp)).resolve_left hv
        have hv' : isVoid item = false := by
          revert hv
          cases isVoid item <;> simp
        by_cases he : equal x item = true
        · have hxi : x = item := equal_eq_of_stored hx hst he
          rw [toRangesAux_cons_ext hv' (r := ⟨A.length, A.length + m, x⟩) he]
          have h2 := ih.2 A (m + 1) x hx (by omega)
          simp only [← Nat.add_assoc] at h2
          rw [h2, ← hxi]
          rw [List.replicate_succ' m x]
          simp [List.append_assoc]
        · have he' : equal x item = false := by
            revert he
            cases equal x item <;> simp
          rw [toRangesAux_cons_brk hv' (r := ⟨A.length, A.length + m, x⟩) he']
          simp only [List.nil_append]
          rw [toRangesAux_append rest (A.length + m + 1)
            (some ⟨A.length + m, A.length + m + 1, item⟩)
            [(⟨A.length, A.length + m, x⟩ : FormatRange)]]
          rw [List.foldl_append]
          simp only [List.foldl_cons, List.foldl_nil]
          have hstep : tileStep A ⟨A.length, A.length + m, x⟩ = A ++ List.replicate m x := by
            rw [tileStep_eq (r := ⟨A.length, A.length + m, x⟩) (Nat.le_refl A.length)
              (Nat.le_add_right A.length m)]
            simp
          rw [hstep]
          have hlen' : (A ++ List.replicate m x).length = A.length + m := by
            rw [List.length_append, List.length_replicate]
          have h2 := ih.2 (A ++ List.replicate m x) 1 item hst (by omega)
          rw [hlen'] at h2
          rw [h2]
          simp [List.append_assoc]

/-- C3: `tileRanges` and `toRanges` round-trip exactly — for every dense
per-position value array `v` of void (`null`) or stored values with no
leading and no trailing void entries and no entries beyond the slot's
length (so that clipping to `slot.length` introduces no dangling nulls),
`tileRanges (toRanges v)` equals `v`.  Record values are taken in their
canonical key-sorted representation (JavaScript key order is unobservable
up to the deep equality the round-trip is stated with). -/
theorem tileRanges_toRanges_roundTrip (slotLength : Nat) (v : List FormatValue)
    (hvals : ∀ x ∈ v, isVoid x = true ∨ storedValue x)
    (hlead : ∀ z, v.head? = some z → isVoid z = false)
    (htrail : ∀ z, v.getLast? = some z → isVoid z = false)
    (hlen : v.length ≤ slotLength) :
    tileRanges slotLength (toRanges v) = v := by
  have hmain := (tileFold_toRangesAux v hvals htrail).1 []
  simp only [List.length_nil, List.nil_append] at hmain
  simp only [tileRanges, toRanges]
  rw [hmain, min_eq_left hlen]
  simp [listSetLen, List.take_length]

/-- Witness for C3 at a concrete dense array of length three inside a
slot of length ten. -/
theorem tileRanges_toRanges_roundTrip_witness :
    tileRanges 10 (toRanges
        [FormatValue.prim (.bool true), FormatValue.null, FormatValue.prim (.str "a")])
      = [FormatValue.prim (.bool true), FormatValue.null, FormatValue.prim (.str "a")] :=
  tileRanges_toRanges_roundTrip 10 _ (by decide)
    (by intro z hz; simp only [List.head?_cons, Option.some.injEq] at hz; rw [← hz]; rfl)
    (by
      intro z hz
      have hcomp : ([FormatValue.prim (.bool true), FormatValue.null,
            FormatValue.prim (.str "a")] : List FormatValue).getLast?
          = some (FormatValue.prim (.str "a")) := by decide
      rw [hcomp] at hz
      injection hz with h
      rw [← h]
      rfl)
    (by decide)

/-! Positional facts about `tileRanges`, used to show that tiling a
well-formed non-empty range list keeps at least one non-void entry. -/

theorem listFill_length (v : FormatValue) :
    ∀ (l : List FormatValue) (s e : Nat), (listFill l v s e).length = l.length := by
  intro l
  induction l with
  | nil => intro s e; simp [listFill]
  | cons x xs ih => intro s e; simp [listFill, ih]

theorem listSetLen_length (l : List FormatValue) (n : Nat) : (listSetLen l n).length = n := by
  simp only [listSetLen, List.length_append, List.length_take, List.length_replicate]
  omega

theorem tileStep_length (acc : List FormatValue) (r : FormatRange) :
    (tileStep acc r).length = max acc.length r.endIndex := by
  rw [tileStep, listFill_length, listSetLen_length]

theorem listFill_get?_in (v : FormatValue) :
    ∀ (l : List FormatValue) (s e i : Nat), s ≤ i → i < e → i < l.length →
      (listFill l v s e).get? i = some v := by
  intro l
  induction l with
  | nil => intro s e i _ _ h; simp at h
  | cons x xs ih =>
    intro s e i hs he hl
    cases i with
    | zero =>
      have hs0 : s = 0 := Nat.le_zero.mp hs
      simp [listFill, hs0, he]
    | succ j =>
      simp only [listFill, List.get?_cons_succ]
      exact ih (s - 1) (e - 1) j (by omega) (by omega) (by simpa using hl)

theorem listSetLen_get?_lt {l : List FormatValue} {n i : Nat} (h1 : i < n) (h2 : i < l.length) :
    (listSetLen l n).get? i = l.get? i := by
  rw [listSetLen]
  rw [List.get?_append (by simp [List.length_take]; omega)]
  exact List.get?_take h1

theorem tileStep_get?_in {acc : List FormatValue} {r : FormatRange} {i : Nat}
    (h1 : r.startIndex ≤ i) (h2 : i < r.endIndex) :
    (tileStep acc r).get? i = some r.value := by
  rw [tileStep]
  exact listFill_get?_in r.value _ r.startIndex r.endIndex i h1 h2
    (by rw [listSetLen_length]; omega)

theorem tileRanges_last_get? (L : Nat) (rs : List FormatRange) (r : FormatRange)
    (hpos : r.startIndex < r.endIndex) (hle : r.endIndex ≤ L) :
    (tileRanges L (rs ++ [r])).get? r.startIndex = some r.value := by
  simp only [tileRanges, List.foldl_append, List.foldl_cons, List.foldl_nil]
  have harr : (tileStep (List.foldl tileStep [] rs) r).get? r.startIndex = some r.value :=
    tileStep_get?_in (le_refl _) hpos
  have hlen : (tileStep (List.foldl tileStep [] rs) r).length
      = max (List.foldl tileStep [] rs).length r.endIndex := tileStep_length _ _
  rw [listSetLen_get?_lt (by rw [hlen]; omega) (by rw [hlen]; omega)]
  exact harr

theorem tileRanges_has_nonvoid (L : Nat) (g : List FormatRange) (hg : g ≠ [])
    (hwf : ∀ r ∈ g, r.startIndex < r.endIndex ∧ r.endIndex ≤ L ∧ isVoid r.value = false) :
    ∃ x ∈ tileRanges L g, isVoid x = false := by
  rcases (List.eq_nil_or_concat g).resolve_left hg with ⟨g', r, hgr⟩
  rw [List.concat_eq_append] at hgr
  subst hgr
  have hr := hwf r (by simp)
  refine ⟨r.value, ?_, hr.2.2⟩
  exact List.get?_mem (tileRanges_last_get? L g' r hr.1 hr.2.1)

theorem listSplice_keeps {l : List FormatValue} {x : FormatValue} (i : Nat)
    (items : List FormatValue) (hx : x ∈ l) : x ∈ listSplice l i items := by
  rw [listSplice]
  rw [← List.take_append_drop i l] at hx
  rcases List.mem_append.mp hx with h | h
  · exact List.mem_append.mpr (Or.inl (List.mem_append.mpr (Or.inl h)))
  · exact List.mem_append.mpr (Or.inr h)

theorem toRanges_ne_nil {w : List FormatValue} (h : ∃ x ∈ w, isVoid x = false) :
    toRanges w ≠ [] := by
  rcases h with ⟨x, hx, hvx⟩
  exact toRangesAux_ne_nil w 0 ⟨x, hx, by simp [hvx]⟩

/-! Structure of `formatRangesToMap`: every group is non-empty and its
members come from the input list. -/

theorem addToGroup_entries {C : FormatRange → Prop} :
    ∀ (acc : List (FormatValue × List FormatRange)) (item : FormatRange),
    (∀ kg ∈ acc, kg.2 ≠ [] ∧ ∀ r ∈ kg.2, C r) → C item →
    ∀ kg ∈ addToGroup acc item, kg.2 ≠ [] ∧ ∀ r ∈ kg.2, C r := by
  intro acc
  induction acc with
  | nil =>
    intro item _ hC kg hkg
    simp only [addToGroup, List.mem_singleton] at hkg
    subst hkg
    exact ⟨by simp, by simpa using hC⟩
  | cons a rest ih =>
    intro item hacc hC kg hkg
    rw [show addToGroup (a :: rest) item = _ from rfl] at hkg
    rcases a with ⟨k, g⟩
    simp only [addToGroup] at hkg
    by_cases hk : equal k item.value = true
    · rw [if_pos hk] at hkg
      rcases List.mem_cons.mp hkg with h | h
      · subst h
        refine ⟨by simp, ?_⟩
        intro r hr
        rcases List.mem_append.mp hr with h' | h'
        · exact (hacc (k, g) (by simp)).2 r h'
        · rw [List.mem_singleton.mp h']
          exact hC
      · exact hacc kg (List.mem_cons_of_mem _ h)
    · rw [if_neg hk] at hkg
      rcases List.mem_cons.mp hkg with h | h
      · subst h
        exact hacc (k, g) (by simp)
      · exact ih item (fun q hq => hacc q (List.mem_cons_of_mem _ hq)) hC kg h

theorem formatRangesToMap_entries {C : FormatRange → Prop} :
    ∀ (l : List FormatRange) (acc : List (FormatValue × List FormatRange)),
    (∀ kg ∈ acc, kg.2 ≠ [] ∧ ∀ r ∈ kg.2, C r) → (∀ r ∈ l, C r) →
    ∀ kg ∈ l.foldl addToGroup acc, kg.2 ≠ [] ∧ ∀ r ∈ kg.2, C r := by
  intro l
  induction l with
  | nil => intro acc hacc _ kg hkg; exact hacc kg hkg
  | cons r l' ih =>
    intro acc hacc hC kg hkg
    simp only [List.foldl_cons] at hkg
    exact ih (addToGroup acc r)
      (addToGroup_entries acc r hacc (hC r (by simp)))
      (fun q hq => hC q (List.mem_cons_of_mem _ hq)) kg hkg

theorem addToGroup_ne_nil (acc : List (FormatValue × List FormatRange)) (item : FormatRange) :
    addToGroup acc item ≠ [] := by
  cases acc with
  | nil => simp [addToGroup]
  | cons a rest =>
    rcases a with ⟨k, g⟩
    simp only [addToGroup]
    by_cases hk : equal k item.value = true
    · rw [if_pos hk]; simp
    · rw [if_neg hk]; simp

theorem foldl_addToGroup_ne_nil :
    ∀ (l : List FormatRange) (acc : List (FormatValue × List FormatRange)), acc ≠ [] →
      l.foldl addToGroup acc ≠ [] := by
  intro l
  induction l with
  | nil => intro acc h; simpa using h
  | cons r l' ih =>
    intro acc _
    simp only [List.foldl_cons]
    exact ih (addToGroup acc r) (addToGroup_ne_nil acc r)

theorem formatRangesToMap_ne_nil {l : List FormatRange} (h : l ≠ []) :
    formatRangesToMap l ≠ [] := by
  cases l with
  | nil => exact absurd rfl h
  | cons r l' =>
    rw [formatRangesToMap, List.foldl_cons]
    exact foldl_addToGroup_ne_nil l' (addToGroup [] r) (addToGroup_ne_nil [] r)

theorem flatMap_ne_nil {α β : Type} {l : List α} {f : α → List β} {a : α}
    (ha : a ∈ l) (hf : f a ≠ []) : l.flatMap f ≠ [] := by
  intro hc
  rw [List.flatMap_eq_nil_iff] at hc
  exact hf (hc a ha)

/-- `noEmptyEntries` is the invariant of claim C7: a formatter with an
empty range list is never present as a key of the store's mapping. -/
def noEmptyEntries (st : Format) : Prop := ∀ p ∈ st.map, p.2 ≠ []

/-- Well-formedness of a store per the data model: entries are non-empty
and every range has positive width, ends within the slot, and carries a
non-void value. -/
def storeWF (st : Format) : Prop :=
  ∀ p ∈ st.map, p.2 ≠ [] ∧ ∀ r ∈ p.2,
    r.startIndex < r.endIndex ∧ r.endIndex ≤ st.slotLength ∧ isVoid r.value = false

theorem noEmptyMap_delete {m : FormatMap} {f : Formatter} (h : ∀ p ∈ m, p.2 ≠ []) :
    ∀ p ∈ mapDelete m f, p.2 ≠ [] := by
  intro p hp
  exact h p (List.mem_of_mem_filter hp)

theorem noEmptyMap_set {m : FormatMap} {f : Formatter} {l : List FormatRange}
    (h : ∀ p ∈ m, p.2 ≠ []) (hl : l ≠ []) : ∀ p ∈ mapSet m f l, p.2 ≠ [] := by
  intro p hp
  rw [mapSet] at hp
  split at hp
  · rcases List.mem_map.mp hp with ⟨q, hq, he⟩
    rw [← he]
    by_cases hc : (q.1 == f) = true
    · simpa [hc] using hl
    · simp only [hc, if_false]
      exact h q hq
  · rcases List.mem_append.mp hp with h1 | h1
    · exact h p h1
    · rw [List.mem_singleton.mp h1]
      exact hl

theorem merge_noEmpty (st : Format) (f : Formatter) (d : MergeData)
    (h : noEmptyEntries st) : noEmptyEntries (merge st f d) := by
  unfold merge
  cases f.type with
  | Block =>
    cases d with
    | range r => exact h
    | value v =>
      dsimp only
      split
      · exact noEmptyMap_delete h
      · split
        · split
          · split
            · exact noEmptyMap_delete h
            · exact h
          all_goals exact noEmptyMap_set h (by simp)
        · split
          · split
            · exact noEmptyMap_delete h
            · split
              · split
                · split
                  · exact noEmptyMap_delete h
                  · exact h
                · exact h
              · exact h
          all_goals exact noEmptyMap_set h (by simp)
  | Inline =>
    cases d with
    | value v => exact h
    | range r =>
      dsimp only
      split
      · split
        · exact h
        · exact noEmptyMap_set h (by simp)
      · split
        · exact noEmptyMap_delete h
        · rename_i hne
          refine noEmptyMap_set h ?_
          intro hc
          rw [hc] at hne
          simp at hne

theorem stretch_noEmpty (st : Format) (i c : Nat) (h : noEmptyEntries st) :
    noEmptyEntries (stretch st i c) := by
  intro p hp
  rcases List.mem_map.mp hp with ⟨q, hq, he⟩
  rw [← he]
  intro hc
  exact h q hq (List.map_eq_nil.mp hc)

theorem split_noEmpty (st : Format) (i dist : Nat) (hwf : storeWF st) :
    noEmptyEntries (split st i dist) := by
  intro p hp
  rcases List.mem_map.mp hp with ⟨q, hq, he⟩
  obtain ⟨hqne, hqwf⟩ := hwf q hq
  rw [← he]
  split
  · intro hc
    exact hqne (List.map_eq_nil.mp hc)
  · split
    · have hgroups := formatRangesToMap_ne_nil hqne
      rcases (List.exists_cons_of_ne_nil hgroups) with ⟨kg, gs, hgs⟩
      have hent := formatRangesToMap_entries q.2 []
        (by simp) (fun r hr => hqwf r hr) kg (by rw [formatRangesToMap] at hgs; rw [hgs]; simp)
      refine flatMap_ne_nil (a := kg) (by rw [hgs]; simp) ?_
      refine toRanges_ne_nil ?_
      obtain ⟨x, hx, hvx⟩ := tileRanges_has_nonvoid st.slotLength kg.2 hent.1
        (fun r hr => hent.2 r hr)
      exact ⟨x, listSplice_keeps i _ hx, hvx⟩
    · refine toRanges_ne_nil ?_
      obtain ⟨x, hx, hvx⟩ := tileRanges_has_nonvoid st.slotLength q.2 hqne hqwf
      exact ⟨x, listSplice_keeps i _ hx, hvx⟩

theorem shrink_noEmpty (st : Format) (s c : Nat) : noEmptyEntries (shrink st s c) := by
  intro p hp
  rcases List.mem_filterMap.mp hp with ⟨q, hq, he⟩
  by_cases hc : (normalizeFormatRange st.slotLength q.1 q.2 none).isEmpty = true
  · simp only [hc, if_true] at he
    exact absurd he (by simp)
  · simp only [hc] at he
    rw [if_neg (by simp)] at he
    injection he with he
    rw [← he]
    intro h0
    simp only at h0
    exact hc (by rw [h0]; rfl)

theorem extract_noEmpty (st : Format) (a b : Nat) : noEmptyEntries (extract st a b) := by
  intro p hp
  rcases List.mem_filterMap.mp hp with ⟨q, hq, he⟩
  by_cases hc : (extractFormatRangesByFormatter st a b q.1).isEmpty = true
  · simp only [hc, if_true] at he
    exact absurd he (by simp)
  · simp only [hc] at he
    rw [if_neg (by simp)] at he
    injection he with he
    rw [← he]
    intro h0
    simp only at h0
    exact hc (by rw [h0]; rfl)

theorem createFormatByRange_noEmpty (st : Format) (L a b : Nat) :
    noEmptyEntries (createFormatByRange st L a b) := by
  intro p hp
  rcases List.mem_filterMap.mp hp with ⟨q, hq, he⟩
  by_cases hc : (extractFormatRangesByFormatter st a b q.1).isEmpty = true
  · simp only [hc, if_true] at he
    exact absurd he (by simp)
  · simp only [hc] at he
    rw [if_neg (by simp)] at he
    injection he with he
    rw [← he]
    intro h0
    simp only [List.map_eq_nil] at h0
    exact hc (by rw [h0]; rfl)

/-- C7: every Range Store operation — `merge`, `stretch`, `split`,
`shrink`, `extract`, `createFormatByRange` — preserves the invariant that
a formatter with an empty range list is never present as a key of the
store's mapping (absence of formatting means absence of the entry, never
an empty list).  The store is assumed well-formed per the data model
(positive-width ranges within the slot, non-void values), which `split`
needs to re-collapse every tiled group into at least one range. -/
theorem ops_preserve_noEmptyEntries (st : Format) (hwf : storeWF st) :
    (∀ (f : Formatter) (d : MergeData), noEmptyEntries (merge st f d)) ∧
    (∀ i c : Nat, noEmptyEntries (stretch st i c)) ∧
    (∀ i dist : Nat, noEmptyEntries (split st i dist)) ∧
    (∀ s c : Nat, noEmptyEntries (shrink st s c)) ∧
    (∀ a b : Nat, noEmptyEntries (extract st a b)) ∧
    (∀ L a b : Nat, noEmptyEntries (createFormatByRange st L a b)) := by
  have hne : noEmptyEntries st := fun p hp => (hwf p hp).1
  exact ⟨fun f d => merge_noEmpty st f d hne,
    fun i c => stretch_noEmpty st i c hne,
    fun i dist => split_noEmpty st i dist hwf,
    fun s c => shrink_noEmpty st s c,
    fun a b => extract_noEmpty st a b,
    fun L a b => createFormatByRange_noEmpty st L a b⟩

/-! The per-formatter range-list invariant of claim C8: pairwise
disjointness, sortedness by `startIndex`, and no value-equal adjacent
ranges. -/

/-- Relative position of two ranges in a well-formed list: the first
starts no later, ends before the second starts, and when the two touch
their values are not `Format.equal`. -/
def adjRel (a b : FormatRange) : Prop :=
  a.startIndex ≤ b.startIndex ∧ a.endIndex ≤ b.startIndex ∧
    (a.endIndex = b.startIndex → equal a.value b.value = false)

instance (a b : FormatRange) : Decidable (adjRel a b) :=
  inferInstanceAs (Decidable (_ ∧ _ ∧ _))

/-- The invariant of claim C8 for one formatter's range list: ranges of
positive width, pairwise disjoint and sorted by `startIndex`, adjacent
(touching) ranges never value-equal. -/
def RangeListOk (l : List FormatRange) : Prop :=
  (∀ r ∈ l, r.startIndex < r.endIndex) ∧ l.Pairwise adjRel

instance (l : List FormatRange) : Decidable (RangeListOk l) :=
  inferInstanceAs (Decidable (_ ∧ _))

/-- The store-level form of the amended claim C8: the invariant holds for
every inline non-overlap formatter's list. -/
def inlineNonOverlapOk (st : Format) : Prop :=
  ∀ p ∈ st.map, p.1.type = FormatType.Inline → p.1.overlap = false → RangeListOk p.2

instance (st : Format) : Decidable (inlineNonOverlapOk st) := by
  unfold inlineNonOverlapOk
  infer_instance

/-- `toRanges` always emits a list satisfying the range-list invariant:
the scan invariant carried through `toRangesAux`. -/
theorem toRangesAux_ok : ∀ (v : List FormatValue) (i : Nat) (cur : Option FormatRange)
    (done : List FormatRange),
    (∀ r ∈ done, r.startIndex < r.endIndex) →
    done.Pairwise adjRel →
    (match cur with
     | none => ∀ r ∈ done, r.endIndex < i
     | some c => c.startIndex < c.endIndex ∧ c.endIndex = i ∧ ∀ r ∈ done, adjRel r c) →
    RangeListOk (toRangesAux v i cur done) := by
  intro v
  induction v with
  | nil =>
    intro i cur done hpos hpw hcur
    simp only [toRangesAux]
    cases cur with
    | none =>
      simp only [Option.toList_none, List.append_nil]
      exact ⟨hpos, hpw⟩
    | some c =>
      simp only [Option.toList_some]
      constructor
      · intro r hr
        rcases List.mem_append.mp hr with h | h
        · exact hpos r h
        · rw [List.mem_singleton.mp h]
          exact hcur.1
      · rw [List.pairwise_append]
        refine ⟨hpw, by simp, ?_⟩
        intro a ha b hb
        rw [List.mem_singleton.mp hb]
        exact hcur.2.2 a ha
  | cons item rest ih =>
    intro i cur done hpos hpw hcur
    by_cases hv : isVoid item = true
    · rw [toRangesAux_cons_void hv]
      cases cur with
      | none =>
        simp only [Option.toList_none, List.append_nil]
        refine ih (i + 1) none done hpos hpw ?_
        intro r hr
        exact Nat.lt_succ_of_lt (hcur r hr)
      | some c =>
        simp only [Option.toList_some]
        refine ih (i + 1) none (done ++ [c]) ?_ ?_ ?_
        · intro r hr
          rcases List.mem_append.mp hr with h | h
          · exact hpos r h
          · rw [List.mem_singleton.mp h]
            exact hcur.1
        · rw [List.pairwise_append]
          refine ⟨hpw, by simp, ?_⟩
          intro a ha b hb
          rw [List.mem_singleton.mp hb]
          exact hcur.2.2 a ha
        · intro r hr
          rcases List.mem_append.mp hr with h | h
          · have := (hcur.2.2 r h).2.1
            have hce : c.endIndex = i := hcur.2.1
            have hcp : c.startIndex < c.endIndex := hcur.1
            omega
          · rw [List.mem_singleton.mp h]
            omega
    · have hv' : isVoid item = false := by
        revert hv
        cases isVoid item <;> simp
      cases cur with
      | none =>
        rw [toRangesAux_cons_new hv']
        refine ih (i + 1) (some ⟨i, i + 1, item⟩) done hpos hpw ?_
        refine ⟨Nat.lt_succ_self i, rfl, ?_⟩
        intro r hr
        have hlt := hcur r hr
        have hp := hpos r hr
        refine ⟨show r.startIndex ≤ i by omega, show r.endIndex ≤ i by omega, ?_⟩
        intro hadj
        exact absurd (show r.endIndex = i from hadj) (by omega)
      | some c =>
        by_cases he : equal c.value item = true
        · rw [toRangesAux_cons_ext hv' he]
          refine ih (i + 1) (some { c with endIndex := i + 1 }) done hpos hpw ?_
          refine ⟨?_, rfl, ?_⟩
          · have := hcur.1
            have := hcur.2.1
            show c.startIndex < i + 1
            omega
          · intro r hr
            have hrel := hcur.2.2 r hr
            exact ⟨hrel.1, hrel.2.1, hrel.2.2⟩
        · have he' : equal c.value item = false := by
            revert he
            cases equal c.value item <;> simp
          rw [toRangesAux_cons_brk hv' he']
          refine ih (i + 1) (some ⟨i, i + 1, item⟩) (done ++ [c]) ?_ ?_ ?_
          · intro r hr
            rcases List.mem_append.mp hr with h | h
            · exact hpos r h
            · rw [List.mem_singleton.mp h]
              exact hcur.1
          · rw [List.pairwise_append]
            refine ⟨hpw, by simp, ?_⟩
            intro a ha b hb
            rw [List.mem_singleton.mp hb]
            exact hcur.2.2 a ha
          · refine ⟨Nat.lt_succ_self i, rfl, ?_⟩
            intro r hr
            rcases List.mem_append.mp hr with h | h
            · have hrel := hcur.2.2 r h
              have hce : c.endIndex = i := hcur.2.1
              have hcp : c.startIndex < c.endIndex := hcur.1
              have hr1 : r.startIndex ≤ c.startIndex := hrel.1
              have hr2 : r.endIndex ≤ c.startIndex := hrel.2.1
              refine ⟨show r.startIndex ≤ i by omega, show r.endIndex ≤ i by omega, ?_⟩
              intro hadj
              exact absurd (show r.endIndex = i from hadj) (by omega)
            · rw [List.mem_singleton.mp h]
              have hce : c.endIndex = i := hcur.2.1
              have hcp : c.startIndex < c.endIndex := hcur.1
              refine ⟨show c.startIndex ≤ i by omega, show c.endIndex ≤ i by omega, ?_⟩
              intro _
              exact he'

theorem toRanges_ok (w : List FormatValue) : RangeListOk (toRanges w) := by
  rw [toRanges]
  exact toRangesAux_ok w 0 none [] (by simp) (by simp) (by simp)

/-- The precondition of §4.2 on `merge`'s argument: a malformed inline
range (`startIndex ≥ endIndex`) is a caller programming error. -/
def mergeDataWF : MergeData → Prop
  | .value _ => True
  | .range r => r.startIndex < r.endIndex

instance (d : MergeData) : Decidable (mergeDataWF d) := by
  cases d with
  | value v => exact inferInstanceAs (Decidable True)
  | range r => exact inferInstanceAs (Decidable (_ < _))

theorem mem_mapSet {m : FormatMap} {f : Formatter} {l : List FormatRange}
    {p : Formatter × List FormatRange} (hp : p ∈ mapSet m f l) : p = (f, l) ∨ p ∈ m := by
  rw [mapSet] at hp
  split at hp
  · rcases List.mem_map.mp hp with ⟨q, hq, he⟩
    by_cases hc : (q.1 == f) = true
    · rw [if_pos hc] at he
      exact Or.inl he.symm
    · rw [if_neg hc] at he
      exact Or.inr (he ▸ hq)
  · rcases List.mem_append.mp hp with h | h
    · exact Or.inr h
    · exact Or.inl (List.mem_singleton.mp h)

theorem mem_mapDelete {m : FormatMap} {f : Formatter} {p : Formatter × List FormatRange}
    (hp : p ∈ mapDelete m f) : p ∈ m :=
  List.mem_of_mem_filter hp

theorem mapGet_eq_some {m : FormatMap} {f : Formatter} {l : List FormatRange}
    (h : mapGet m f = some l) : ∃ e ∈ m, e.1 = f ∧ e.2 = l := by
  rw [mapGet] at h
  cases hf : m.find? (fun e => e.1 == f) with
  | none => rw [hf] at h; simp at h
  | some e =>
    rw [hf] at h
    simp only [Option.map_some', Option.some.injEq] at h
    have hmem := List.mem_of_find?_eq_some hf
    have hkey := List.find?_some hf
    exact ⟨e, hmem, eq_of_beq hkey, h⟩

/-- For a non-overlap formatter, `normalizeFormatRange` always ends with
`toRanges`, so its output satisfies the range-list invariant. -/
theorem normalize_nonoverlap_ok {L : Nat} {formatter : Formatter}
    (hov : formatter.overlap = false) (old : List FormatRange) (nr : Option FormatRange) :
    RangeListOk (normalizeFormatRange L formatter old nr) := by
  unfold normalizeFormatRange
  rw [if_neg (by simp [hov])]
  exact toRanges_ok _

theorem singleton_rangeListOk {r : FormatRange} (h : r.startIndex < r.endIndex) :
    RangeListOk [r] := by
  constructor
  · intro r' hr'
    rw [List.mem_singleton.mp hr']
    exact h
  · simp

theorem merge_inlineOk (st : Format) (f : Formatter) (d : MergeData)
    (hok : inlineNonOverlapOk st) (hd : mergeDataWF d) :
    inlineNonOverlapOk (merge st f d) := by
  unfold merge
  cases hft : f.type with
  | Block =>
    have hset : ∀ (l : List FormatRange), inlineNonOverlapOk
        { slotLength := st.slotLength, map := mapSet st.map f l } := by
      intro l p hp h1 h2
      rcases mem_mapSet hp with h | h
      · exfalso
        rw [h] at h1
        rw [hft] at h1
        exact FormatType.noConfusion h1
      · exact hok p h h1 h2
    have hdel : inlineNonOverlapOk { slotLength := st.slotLength, map := mapDelete st.map f } :=
      fun p hp h1 h2 => hok p (mem_mapDelete hp) h1 h2
    cases d with
    | range r => exact hok
    | value v =>
      dsimp only
      split
      · exact hdel
      · split
        · split
          · split
            · exact hdel
            · exact hok
          all_goals exact hset _
        · split
          · split
            · exact hdel
            · split
              · split
                · split
                  · exact hdel
                  · exact hok
                · exact hok
              · exact hok
          all_goals exact hset _
  | Inline =>
    cases d with
    | value v => exact hok
    | range r =>
      dsimp only
      split
      · split
        · exact hok
        · intro p hp h1 h2
          rcases mem_mapSet hp with h | h
          · rw [h]
            exact singleton_rangeListOk hd
          · exact hok p h h1 h2
      · split
        · exact fun p hp h1 h2 => hok p (mem_mapDelete hp) h1 h2
        · intro p hp h1 h2
          rcases mem_mapSet hp with h | h
          · rw [h] at h2 ⊢
            dsimp only at h2 ⊢
            exact normalize_nonoverlap_ok h2 _ _
          · exact hok p h h1 h2

/-- `stretch`'s per-range shift preserves positive width. -/
theorem stretchRange_pos {i c : Nat} {r : FormatRange} (h : r.startIndex < r.endIndex) :
    (stretchRange i c r).startIndex < (stretchRange i c r).endIndex := by
  rw [stretchRange]
  split
  · exact h
  · by_cases hs : r.startIndex ≥ i
    · rw [if_pos hs]
      show r.startIndex + c < r.endIndex + c
      omega
    · rw [if_neg hs]
      show r.startIndex < r.endIndex + c
      omega

/-- `stretch`'s per-range shift preserves the relative position of two
well-formed ranges. -/
theorem stretchRange_adjRel {i c : Nat} {a b : FormatRange}
    (hpa : a.startIndex < a.endIndex) (hpb : b.startIndex < b.endIndex)
    (hab : adjRel a b) : adjRel (stretchRange i c a) (stretchRange i c b) := by
  obtain ⟨h1, h2, h3⟩ := hab
  by_cases ha1 : a.endIndex < i
  · rw [stretchRange, if_pos ha1]
    by_cases hb1 : b.endIndex < i
    · rw [stretchRange, if_pos hb1]
      exact ⟨h1, h2, h3⟩
    · rw [stretchRange, if_neg hb1]
      by_cases hb2 : b.startIndex ≥ i
      · rw [if_pos hb2]
        refine ⟨show a.startIndex ≤ b.startIndex + c by omega,
          show a.endIndex ≤ b.startIndex + c by omega, ?_⟩
        intro hadj
        exact absurd (show a.endIndex = b.startIndex + c from hadj) (by omega)
      · rw [if_neg hb2]
        refine ⟨show a.startIndex ≤ b.startIndex by omega,
          show a.endIndex ≤ b.startIndex by omega, ?_⟩
        intro hadj
        exact h3 (show a.endIndex = b.startIndex from hadj)
  · have hbs : i ≤ b.startIndex := by omega
    have hb1 : ¬ b.endIndex < i := by omega
    rw [stretchRange, if_neg ha1, stretchRange, if_neg hb1, if_pos (show b.startIndex ≥ i from hbs)]
    by_cases ha2 : a.startIndex ≥ i
    · rw [if_pos ha2]
      refine ⟨show a.startIndex + c ≤ b.startIndex + c by omega,
        show a.endIndex + c ≤ b.startIndex + c by omega, ?_⟩
      intro hadj
      exact h3 (show a.endIndex = b.startIndex by
        have := show a.endIndex + c = b.startIndex + c from hadj
        omega)
    · rw [if_neg ha2]
      refine ⟨show a.startIndex ≤ b.startIndex + c by omega,
        show a.endIndex + c ≤ b.startIndex + c by omega, ?_⟩
      intro hadj
      exact h3 (show a.endIndex = b.startIndex by
        have := show a.endIndex + c = b.startIndex + c from hadj
        omega)

theorem stretchRange_preserves (i c : Nat) {l : List FormatRange} (hok : RangeListOk l) :
    RangeListOk (l.map (stretchRange i c)) := by
  constructor
  · intro r' hr'
    rcases List.mem_map.mp hr' with ⟨r, hr, he⟩
    rw [← he]
    exact stretchRange_pos (hok.1 r hr)
  · rw [List.pairwise_map]
    refine List.Pairwise.imp_of_mem ?_ hok.2
    intro a b ha hb hab
    exact stretchRange_adjRel (hok.1 a ha) (hok.1 b hb) hab

theorem stretch_inlineOk (st : Format) (i c : Nat) (hok : inlineNonOverlapOk st) :
    inlineNonOverlapOk (stretch st i c) := by
  intro p hp h1 h2
  rcases List.mem_map.mp hp with ⟨q, hq, he⟩
  rw [← he] at h1 h2 ⊢
  exact stretchRange_preserves i c (hok q hq h1 h2)

theorem split_inlineOk (st : Format) (i dist : Nat) (hok : inlineNonOverlapOk st) :
    inlineNonOverlapOk (split st i dist) := by
  intro p hp h1 h2
  rcases List.mem_map.mp hp with ⟨q, hq, he⟩
  have hp1 : p.1 = q.1 := by
    rw [← he]
    split
    · rfl
    · split <;> rfl
  have hq1 : q.1.type = FormatType.Inline := hp1 ▸ h1
  have hq2 : q.1.overlap = false := hp1 ▸ h2
  rw [← he]
  rw [if_neg (by rw [hq1]; intro hcc; exact FormatType.noConfusion hcc)]
  rw [if_neg (by simp [hq2])]
  exact toRanges_ok _

theorem shrink_inlineOk (st : Format) (s c : Nat) (hok : inlineNonOverlapOk st) :
    inlineNonOverlapOk (shrink st s c) := by
  intro p hp h1 h2
  rcases List.mem_filterMap.mp hp with ⟨q, hq, he⟩
  by_cases hc : (normalizeFormatRange st.slotLength q.1 q.2 none).isEmpty = true
  · simp only [hc, if_true] at he
    exact absurd he (by simp)
  · simp only [hc] at he
    rw [if_neg (by simp)] at he
    injection he with he
    rw [← he] at h1 h2 ⊢
    dsimp only at h1 h2 ⊢
    exact normalize_nonoverlap_ok h2 _ _

theorem extractRanges_lower (st : Format) (A B : Nat) (f : Formatter) :
    ∀ r' ∈ extractFormatRangesByFormatter st A B f, A ≤ r'.startIndex := by
  intro r' hr'
  rw [extractFormatRangesByFormatter] at hr'
  rcases List.mem_filterMap.mp hr' with ⟨r, hr, he⟩
  by_cases hc1 : r.startIndex > B ∨ r.endIndex < A
  · rw [if_pos hc1] at he
    exact absurd he (by simp)
  · rw [if_neg hc1] at he
    by_cases hc2 : max r.startIndex A < min r.endIndex B
    · rw [if_pos hc2] at he
      injection he with he
      rw [← he]
      exact le_max_right r.startIndex A
    · rw [if_neg hc2] at he
      exact absurd he (by simp)

theorem extractRanges_ok (st : Format) (A B : Nat) (f : Formatter)
    (h : ∀ l, mapGet st.map f = some l → RangeListOk l) :
    RangeListOk (extractFormatRangesByFormatter st A B f) := by
  rw [extractFormatRangesByFormatter]
  cases hm : mapGet st.map f with
  | none =>
    simp only [Option.getD_none]
    exact ⟨by intro r hr; simp at hr, by simp⟩
  | some l =>
    simp only [Option.getD_some]
    have hl := h l hm
    constructor
    · intro r' hr'
      rcases List.mem_filterMap.mp hr' with ⟨r, hr, he⟩
      by_cases hc1 : r.startIndex > B ∨ r.endIndex < A
      · rw [if_pos hc1] at he
        exact absurd he (by simp)
      · rw [if_neg hc1] at he
        by_cases hc2 : max r.startIndex A < min r.endIndex B
        · rw [if_pos hc2] at he
          injection he with he
          rw [← he]
          exact hc2
        · rw [if_neg hc2] at he
          exact absurd he (by simp)
    · rw [List.pairwise_filterMap]
      refine List.Pairwise.imp_of_mem ?_ hl.2
      intro a b ha hb hab r1 h1 r2 h2
      rw [Option.mem_def] at h1 h2
      obtain ⟨g1, g2, g3⟩ := hab
      have hpa := hl.1 a ha
      have hpb := hl.1 b hb
      by_cases hc1 : a.startIndex > B ∨ a.endIndex < A
      · rw [if_pos hc1] at h1
        exact absurd h1 (by simp)
      · rw [if_neg hc1] at h1
        by_cases hc2 : max a.startIndex A < min a.endIndex B
        · rw [if_pos hc2] at h1
          injection h1 with h1
          by_cases hd1 : b.startIndex > B ∨ b.endIndex < A
          · rw [if_pos hd1] at h2
            exact absurd h2 (by simp)
          · rw [if_neg hd1] at h2
            by_cases hd2 : max b.startIndex A < min b.endIndex B
            · rw [if_pos hd2] at h2
              injection h2 with h2
              rw [← h1, ← h2]
              refine ⟨show max a.startIndex A ≤ max b.startIndex A by omega,
                show min a.endIndex B ≤ max b.startIndex A by omega, ?_⟩
              intro hadj
              have hadj' : min a.endIndex B = max b.startIndex A :=
                show min a.endIndex B = max b.startIndex A from hadj
              have hq : a.endIndex = b.startIndex := by omega
              exact g3 hq
            · rw [if_neg hd2] at h2
              exact absurd h2 (by simp)
        · rw [if_neg hc2] at h1
          exact absurd h1 (by simp)

theorem extract_inlineOk (st : Format) (a b : Nat) (hok : inlineNonOverlapOk st) :
    inlineNonOverlapOk (extract st a b) := by
  intro p hp h1 h2
  rcases List.mem_filterMap.mp hp with ⟨q, hq, he⟩
  by_cases hc : (extractFormatRangesByFormatter st a b q.1).isEmpty = true
  · simp only [hc, if_true] at he
    exact absurd he (by simp)
  · simp only [hc] at he
    rw [if_neg (by simp)] at he
    injection he with he
    rw [← he] at h1 h2 ⊢
    dsimp only at h1 h2 ⊢
    refine extractRanges_ok st a b q.1 ?_
    intro l hm
    obtain ⟨e, hem, he1, he2⟩ := mapGet_eq_some hm
    rw [← he2]
    exact hok e hem (by rw [he1]; exact h1) (by rw [he1]; exact h2)

theorem shiftList_ok {l : List FormatRange} (A : Nat) (hok : RangeListOk l)
    (hlow : ∀ r ∈ l, A ≤ r.startIndex) :
    RangeListOk (l.map (fun r =>
      { r with startIndex := r.startIndex - A, endIndex := r.endIndex - A })) := by
  constructor
  · intro r' hr'
    rcases List.mem_map.mp hr' with ⟨r, hr, he⟩
    rw [← he]
    have h1 := hok.1 r hr
    have h2 := hlow r hr
    show r.startIndex - A < r.endIndex - A
    omega
  · rw [List.pairwise_map]
    refine List.Pairwise.imp_of_mem ?_ hok.2
    intro a b ha hb hab
    obtain ⟨g1, g2, g3⟩ := hab
    have hla := hlow a ha
    have hlb := hlow b hb
    have hpa := hok.1 a ha
    have hpb := hok.1 b hb
    refine ⟨show a.startIndex - A ≤ b.startIndex - A by omega,
      show a.endIndex - A ≤ b.startIndex - A by omega, ?_⟩
    intro hadj
    have h0 : a.endIndex - A = b.startIndex - A :=
      show a.endIndex - A = b.startIndex - A from hadj
    exact g3 (by omega)

theorem createFormatByRange_inlineOk (st : Format) (L a b : Nat)
    (hok : inlineNonOverlapOk st) : inlineNonOverlapOk (createFormatByRange st L a b) := by
  intro p hp h1 h2
  rcases List.mem_filterMap.mp hp with ⟨q, hq, he⟩
  by_cases hc : (extractFormatRangesByFormatter st a b q.1).isEmpty = true
  · simp only [hc, if_true] at he
    exact absurd he (by simp)
  · simp only [hc] at he
    rw [if_neg (by simp)] at he
    injection he with he
    rw [← he] at h1 h2 ⊢
    dsimp only at h1 h2 ⊢
    refine shiftList_ok a ?_ (extractRanges_lower st a b q.1)
    refine extractRanges_ok st a b q.1 ?_
    intro l hm
    obtain ⟨e, hem, he1, he2⟩ := mapGet_eq_some hm
    rw [← he2]
    exact hok e hem (by rw [he1]; exact h1) (by rw [he1]; exact h2)

/-- An inline overlap formatter (e.g. an independent comment highlight),
used by the counterexamples. -/
def commentFormatter : Formatter := ⟨2, "comment", FormatType.Inline, true, false⟩

/-- A block non-overlap formatter, used by the counterexamples. -/
def blockDemoFormatter : Formatter := ⟨3, "blockDemo", FormatType.Block, false, false⟩

/-- C8 as stated is false: the range-list invariant (pairwise disjoint,
sorted by startIndex, adjacent never value-equal) is NOT preserved by
every operation for every formatter.  For an inline overlap formatter,
`merge` of a second value produces deliberately overlapping, unsorted
ranges; for a block formatter holding two ranges, `split` grows every
range's end by the distance and makes them overlap. -/
theorem ops_not_preserve_rangeListOk :
    ((∀ p ∈ ([(commentFormatter, [⟨0, 5, FormatValue.prim (.str "a")⟩])] : FormatMap),
        RangeListOk p.2) ∧
      ¬ (∀ p ∈ (merge ⟨10, [(commentFormatter, [⟨0, 5, FormatValue.prim (.str "a")⟩])]⟩
            commentFormatter (.range ⟨2, 7, FormatValue.prim (.str "b")⟩)).map,
          RangeListOk p.2)) ∧
    ((∀ p ∈ ([(blockDemoFormatter,
          [⟨0, 3, FormatValue.prim (.str "a")⟩, ⟨5, 7, FormatValue.prim (.str "b")⟩])] : FormatMap),
        RangeListOk p.2) ∧
      ¬ (∀ p ∈ (split ⟨10, [(blockDemoFormatter,
            [⟨0, 3, FormatValue.prim (.str "a")⟩, ⟨5, 7, FormatValue.prim (.str "b")⟩])]⟩
            0 3).map,
          RangeListOk p.2)) := by decide

/-- C8 amended: every Range Store operation — `merge` (with a well-formed
argument), `stretch`, `split`, `shrink`, `extract`,
`createFormatByRange` — preserves the invariant that within every INLINE
NON-OVERLAP formatter's range list the ranges are positive-width,
pairwise disjoint, sorted by `startIndex`, and adjacent ranges never
carry value-equal contents.  (Overlap formatters store deliberately
overlapping value groups and block formatters with several ranges break
under `split`, as the counterexample shows.) -/
theorem ops_preserve_rangeListOk (st : Format) (hok : inlineNonOverlapOk st) :
    (∀ (f : Formatter) (d : MergeData), mergeDataWF d → inlineNonOverlapOk (merge st f d)) ∧
    (∀ i c : Nat, inlineNonOverlapOk (stretch st i c)) ∧
    (∀ i dist : Nat, inlineNonOverlapOk (split st i dist)) ∧
    (∀ s c : Nat, inlineNonOverlapOk (shrink st s c)) ∧
    (∀ a b : Nat, inlineNonOverlapOk (extract st a b)) ∧
    (∀ L a b : Nat, inlineNonOverlapOk (createFormatByRange st L a b)) :=
  ⟨fun f d hd => merge_inlineOk st f d hok hd,
    fun i c => stretch_inlineOk st i c hok,
    fun i dist => split_inlineOk st i dist hok,
    fun s c => shrink_inlineOk st s c hok,
    fun a b => extract_inlineOk st a b hok,
    fun L a b => createFormatByRange_inlineOk st L a b hok⟩

/-- Witness for the amended C8 at a concrete store and merge call. -/
theorem ops_preserve_rangeListOk_witness :
    inlineNonOverlapOk (merge ⟨10, [(boldFormatter, [⟨2, 5, vTrue⟩])]⟩ boldFormatter
      (.range ⟨4, 8, vTrue⟩)) :=
  (ops_preserve_rangeListOk ⟨10, [(boldFormatter, [⟨2, 5, vTrue⟩])]⟩ (by decide)).1
    boldFormatter (.range ⟨4, 8, vTrue⟩) (by decide)

/-- Witness for C7 on a concrete well-formed store holding one bold
range. -/
theorem ops_preserve_noEmptyEntries_witness :
    noEmptyEntries (merge ⟨10, [(boldFormatter, [⟨2, 5, vTrue⟩])]⟩ boldFormatter
      (.range ⟨1, 3, FormatValue.null⟩)) ∧
    noEmptyEntries (split ⟨10, [(boldFormatter, [⟨2, 5, vTrue⟩])]⟩ 3 2) := by
  have h := ops_preserve_noEmptyEntries ⟨10, [(boldFormatter, [⟨2, 5, vTrue⟩])]⟩
    (by
      intro p hp
      simp only [List.mem_singleton] at hp
      subst hp
      refine ⟨by simp, ?_⟩
      intro r hr
      simp only [List.mem_singleton] at hr
      subst hr
      exact ⟨by decide, by decide, by decide⟩)
  exact ⟨h.1 boldFormatter (.range ⟨1, 3, FormatValue.null⟩), h.2.2.1 3 2⟩

/-- Head value of a value group (`null` for the never-occurring empty
group). -/
def headVal : List FormatRange → FormatValue
  | [] => FormatValue.null
  | r :: _ => r.value

/-- A range list laid out from position `pos` on: every range starts at
or after `pos`, has positive width, and the next range starts strictly
after this one's end (a gap of at least one position, so the flattened
store of an overlap formatter keeps its groups' runs separated). -/
def gappedFrom : Nat → List FormatRange → Bool
  | _, [] => true
  | pos, r :: rest =>
    decide (pos ≤ r.startIndex) && decide (r.startIndex < r.endIndex)
      && gappedFrom (r.endIndex + 1) rest

/-- The dense array `tileRanges` builds from a gapped range list laid out
from position `pos`: voids up to each range's start, then its value. -/
def gapSegments : Nat → List FormatRange → List FormatValue
  | _, [] => []
  | pos, r :: rest =>
    List.replicate (r.startIndex - pos) FormatValue.null
      ++ List.replicate (r.endIndex - r.startIndex) r.value
      ++ gapSegments r.endIndex rest

/-- A well-formed value group as the overlap branch of
`normalizeFormatRange` itself emits one: nonempty, gapped within the
slot, every value non-void, self-`equal` and `equal` to the group's head
value. -/
def overlapGroupOk (L : Nat) (G : List FormatRange) : Prop :=
  G ≠ [] ∧ gappedFrom 0 G = true ∧
    ∀ r ∈ G, r.endIndex ≤ L ∧ isVoid r.value = false ∧
      equal r.value r.value = true ∧ equal (headVal G) r.value = true

instance (L : Nat) (G : List FormatRange) : Decidable (overlapGroupOk L G) := by
  unfold overlapGroupOk; infer_instance

/-- A well-formed overlap store entry: the concatenation of well-formed
value groups whose head values are pairwise not `equal` to any later
group's values (distinct value-equality classes in first-occurrence
order, exactly what `formatRangesToMap` reconstructs). -/
def overlapListOk (L : Nat) (l : List FormatRange) : Prop :=
  ∃ Gs : List (List FormatRange), l = Gs.flatten ∧
    (∀ G ∈ Gs, overlapGroupOk L G) ∧
    Gs.Pairwise (fun G1 G2 => ∀ r ∈ G2, equal (headVal G1) r.value = false)

theorem gappedFrom_mono : ∀ (G : List FormatRange) {p q : Nat}, q ≤ p →
    gappedFrom p G = true → gappedFrom q G = true := by
  intro G
  cases G with
  | nil => intro p q _ _; rfl
  | cons r rest =>
    intro p q hqp h
    simp only [gappedFrom, Bool.and_eq_true, decide_eq_true_eq] at h ⊢
    exact ⟨⟨by omega, h.1.2⟩, h.2⟩

theorem tileFold_gapped : ∀ (G : List FormatRange) (A : List FormatValue),
    gappedFrom A.length G = true →
    List.foldl tileStep A G = A ++ gapSegments A.length G := by
  intro G
  induction G with
  | nil => intro A _; simp [gapSegments]
  | cons r rest ih =>
    intro A h
    simp only [gappedFrom, Bool.and_eq_true, decide_eq_true_eq] at h
    obtain ⟨⟨h1, h2⟩, h3⟩ := h
    simp only [List.foldl_cons]
    rw [tileStep_eq h1 (Nat.le_of_lt h2)]
    have hlen : (A ++ List.replicate (r.startIndex - A.length) FormatValue.null
        ++ List.replicate (r.endIndex - r.startIndex) r.value).length = r.endIndex := by
      simp only [List.length_append, List.length_replicate]
      omega
    rw [ih _ (by rw [hlen]; exact gappedFrom_mono rest (Nat.le_succ _) h3), hlen]
    simp [gapSegments, List.append_assoc]

theorem gapSegments_len_le {L : Nat} : ∀ (G : List FormatRange) (pos : Nat),
    gappedFrom pos G = true → (∀ r ∈ G, r.endIndex ≤ L) → pos ≤ L →
    (gapSegments pos G).length + pos ≤ L := by
  intro G
  induction G with
  | nil => intro pos _ _ h; simpa [gapSegments] using h
  | cons r rest ih =>
    intro pos hg hb hp
    simp only [gappedFrom, Bool.and_eq_true, decide_eq_true_eq] at hg
    obtain ⟨⟨h1, h2⟩, h3⟩ := hg
    have hrL : r.endIndex ≤ L := hb r (List.mem_cons_self r rest)
    have := ih r.endIndex (gappedFrom_mono rest (Nat.le_succ _) h3)
      (fun x hx => hb x (List.mem_cons_of_mem r hx)) hrL
    simp only [gapSegments, List.length_append, List.length_replicate]
    omega

theorem toRangesAux_skip_nulls : ∀ (k : Nat) (w : List FormatValue) (i : Nat)
    (done : List FormatRange),
    toRangesAux (List.replicate k FormatValue.null ++ w) i none done
      = toRangesAux w (i + k) none done := by
  intro k
  induction k with
  | zero => intro w i done; simp
  | succ k ih =>
    intro w i done
    rw [List.replicate_succ, List.cons_append,
      toRangesAux_cons_void (show isVoid FormatValue.null = true from rfl)]
    simp only [Option.toList_none, List.append_nil]
    rw [ih w (i + 1) done]
    have h : i + 1 + k = i + (k + 1) := by omega
    rw [h]

theorem toRangesAux_run_ext : ∀ (m : Nat) (x : FormatValue) (tail : List FormatValue)
    (i s : Nat) (done : List FormatRange), isVoid x = false → equal x x = true →
    toRangesAux (List.replicate m x ++ tail) i (some ⟨s, i, x⟩) done
      = toRangesAux tail (i + m) (some ⟨s, i + m, x⟩) done := by
  intro m
  induction m with
  | zero => intro x tail i s done _ _; simp
  | succ m ih =>
    intro x tail i s done hv he
    rw [List.replicate_succ, List.cons_append, toRangesAux_cons_ext hv he]
    show toRangesAux (List.replicate m x ++ tail) (i + 1) (some ⟨s, i + 1, x⟩) done = _
    rw [ih x tail (i + 1) s done hv he]
    have h : i + 1 + m = i + (m + 1) := by omega
    rw [h]

theorem replicate_cons_of_pos {α : Type} (k : Nat) (a : α) (l : List α) (h : 0 < k) :
    ∃ t, List.replicate k a ++ l = a :: t := by
  cases k with
  | zero => omega
  | succ k => exact ⟨List.replicate k a ++ l, by rw [List.replicate_succ]; rfl⟩

theorem toRangesAux_run (w : Nat) (x : FormatValue) (tail : List FormatValue)
    (i : Nat) (done : List FormatRange) (hw : 0 < w) (hv : isVoid x = false)
    (he : equal x x = true)
    (htail : tail = [] ∨ ∃ y tail', tail = y :: tail' ∧ isVoid y = true) :
    toRangesAux (List.replicate w x ++ tail) i none done
      = toRangesAux tail (i + w) none (done ++ [⟨i, i + w, x⟩]) := by
  obtain ⟨m, rfl⟩ : ∃ m, w = m + 1 := ⟨w - 1, by omega⟩
  rw [List.replicate_succ, List.cons_append, toRangesAux_cons_new hv]
  rw [toRangesAux_run_ext m x tail (i + 1) i done hv he]
  rcases htail with rfl | ⟨y, tail', rfl, hy⟩
  · simp only [toRangesAux, Option.toList_some, Option.toList_none, List.append_nil]
    have h : i + 1 + m = i + (m + 1) := by omega
    rw [h]
  · rw [toRangesAux_cons_void hy, toRangesAux_cons_void hy]
    simp only [Option.toList_some, Option.toList_none, List.append_nil]
    have h : i + 1 + m = i + (m + 1) := by omega
    rw [h]

theorem toRanges_gapSegments : ∀ (G : List FormatRange) (pos : Nat) (done : List FormatRange),
    gappedFrom pos G = true →
    (∀ r ∈ G, isVoid r.value = false ∧ equal r.value r.value = true) →
    toRangesAux (gapSegments pos G) pos none done = done ++ G := by
  intro G
  induction G with
  | nil => intro pos done _ _; simp [gapSegments, toRangesAux]
  | cons r rest ih =>
    intro pos done hg hv
    simp only [gappedFrom, Bool.and_eq_true, decide_eq_true_eq] at hg
    obtain ⟨⟨h1, h2⟩, h3⟩ := hg
    obtain ⟨hrv, hre⟩ := hv r (List.mem_cons_self r rest)
    simp only [gapSegments]
    rw [List.append_assoc, toRangesAux_skip_nulls]
    have hpos : pos + (r.startIndex - pos) = r.startIndex := by omega
    rw [hpos]
    have htail : gapSegments r.endIndex rest = []
        ∨ ∃ y tail', gapSegments r.endIndex rest = y :: tail' ∧ isVoid y = true := by
      cases rest with
      | nil => exact Or.inl rfl
      | cons r' rest' =>
        simp only [gappedFrom, Bool.and_eq_true, decide_eq_true_eq] at h3
        obtain ⟨t, ht⟩ := replicate_cons_of_pos (r'.startIndex - r.endIndex) FormatValue.null
          (List.replicate (r'.endIndex - r'.startIndex) r'.value
            ++ gapSegments r'.endIndex rest') (by omega)
        exact Or.inr ⟨FormatValue.null, t,
          by simp only [gapSegments]; rw [List.append_assoc]; exact ht, rfl⟩
    rw [toRangesAux_run (r.endIndex - r.startIndex) r.value _ r.startIndex done
      (by omega) hrv hre htail]
    have hidx : r.startIndex + (r.endIndex - r.startIndex) = r.endIndex := by omega
    rw [hidx]
    have hIH := ih r.endIndex (done ++ [r])
      (gappedFrom_mono rest (Nat.le_succ _) h3)
      (fun x hx => hv x (List.mem_cons_of_mem r hx))
    rw [List.append_assoc] at hIH
    exact hIH

/-- For a group in gapped form, re-tiling it into the slot's dense array
and collapsing back is the identity: the sorted, separated runs are read
off exactly as they were stored. -/
theorem toRanges_tile_gapped (L : Nat) (G : List FormatRange)
    (hg : gappedFrom 0 G = true) (hb : ∀ r ∈ G, r.endIndex ≤ L)
    (hv : ∀ r ∈ G, isVoid r.value = false ∧ equal r.value r.value = true) :
    toRanges (tileRanges L G) = G := by
  unfold tileRanges toRanges
  rw [tileFold_gapped G [] hg]
  simp only [List.nil_append, List.length_nil]
  have hlen : (gapSegments 0 G).length ≤ L := by
    have := gapSegments_len_le G 0 hg hb (Nat.zero_le L)
    omega
  rw [min_eq_left hlen, listSetLen_of_le (le_refl _)]
  simp only [Nat.sub_self, List.replicate_zero, List.append_nil]
  have := toRanges_gapSegments G 0 [] hg hv
  simpa using this

theorem addToGroup_no_match {acc : List (FormatValue × List FormatRange)} {item : FormatRange}
    (h : ∀ kg ∈ acc, equal kg.1 item.value = false) :
    addToGroup acc item = acc ++ [(item.value, [item])] := by
  induction acc with
  | nil => rfl
  | cons e rest ih =>
    obtain ⟨k, g⟩ := e
    simp only [addToGroup]
    rw [if_neg (by simp [h (k, g) (List.mem_cons_self _ _)]),
      ih (fun kg hkg => h kg (List.mem_cons_of_mem _ hkg))]
    rfl

theorem addToGroup_match_last {acc0 : List (FormatValue × List FormatRange)}
    {k : FormatValue} {g : List FormatRange} {item : FormatRange}
    (h0 : ∀ kg ∈ acc0, equal kg.1 item.value = false) (hk : equal k item.value = true) :
    addToGroup (acc0 ++ [(k, g)]) item = acc0 ++ [(k, g ++ [item])] := by
  induction acc0 with
  | nil => simp only [List.nil_append, addToGroup, if_pos hk]
  | cons e rest ih =>
    obtain ⟨k', g'⟩ := e
    simp only [List.cons_append, addToGroup, List.append_eq]
    rw [if_neg (by simp [h0 (k', g') (List.mem_cons_self _ _)]),
      ih (fun kg hkg => h0 kg (List.mem_cons_of_mem _ hkg))]

theorem foldl_addToGroup_into_last : ∀ (t : List FormatRange)
    (acc0 : List (FormatValue × List FormatRange)) (k : FormatValue) (g : List FormatRange),
    (∀ kg ∈ acc0, ∀ r ∈ t, equal kg.1 r.value = false) →
    (∀ r ∈ t, equal k r.value = true) →
    List.foldl addToGroup (acc0 ++ [(k, g)]) t = acc0 ++ [(k, g ++ t)] := by
  intro t
  induction t with
  | nil => intro acc0 k g _ _; simp
  | cons r t' ih =>
    intro acc0 k g h0 hk
    simp only [List.foldl_cons]
    rw [addToGroup_match_last (fun kg hkg => h0 kg hkg r (List.mem_cons_self _ _))
      (hk r (List.mem_cons_self _ _))]
    rw [ih acc0 k (g ++ [r]) (fun kg hkg x hx => h0 kg hkg x (List.mem_cons_of_mem _ hx))
      (fun x hx => hk x (List.mem_cons_of_mem _ hx))]
    simp

theorem foldl_addToGroup_flatten : ∀ (Gs : List (List FormatRange))
    (acc : List (FormatValue × List FormatRange)),
    (∀ kg ∈ acc, ∀ G ∈ Gs, ∀ r ∈ G, equal kg.1 r.value = false) →
    (∀ G ∈ Gs, G ≠ [] ∧ ∀ r ∈ G, equal (headVal G) r.value = true) →
    Gs.Pairwise (fun G1 G2 => ∀ r ∈ G2, equal (headVal G1) r.value = false) →
    List.foldl addToGroup acc Gs.flatten = acc ++ Gs.map (fun G => (headVal G, G)) := by
  intro Gs
  induction Gs with
  | nil => intro acc _ _ _; simp
  | cons G Gs' ih =>
    intro acc hacc hgs hpw
    obtain ⟨hne, hintra⟩ := hgs G (List.mem_cons_self _ _)
    obtain ⟨h, t, rfl⟩ := List.exists_cons_of_ne_nil hne
    rw [List.flatten_cons, List.foldl_append]
    have hGfold : List.foldl addToGroup acc (h :: t) = acc ++ [(h.value, h :: t)] := by
      simp only [List.foldl_cons]
      rw [addToGroup_no_match
        (fun kg hkg => hacc kg hkg (h :: t) (List.mem_cons_self _ _) h (List.mem_cons_self _ _))]
      rw [foldl_addToGroup_into_last t acc h.value [h]
        (fun kg hkg x hx =>
          hacc kg hkg (h :: t) (List.mem_cons_self _ _) x (List.mem_cons_of_mem _ hx))
        (fun x hx => hintra x (List.mem_cons_of_mem _ hx))]
      rfl
    rw [hGfold]
    have hpw' := List.pairwise_cons.mp hpw
    have hacc' : ∀ kg ∈ acc ++ [(h.value, h :: t)], ∀ G' ∈ Gs', ∀ r ∈ G',
        equal kg.1 r.value = false := by
      intro kg hkg G' hG' r hr
      rcases List.mem_append.mp hkg with hkg | hkg
      · exact hacc kg hkg G' (List.mem_cons_of_mem _ hG') r hr
      · rw [List.mem_singleton.mp hkg]
        exact hpw'.1 G' hG' r hr
    rw [ih (acc ++ [(h.value, h :: t)]) hacc'
      (fun G' hG' => hgs G' (List.mem_cons_of_mem _ hG')) hpw'.2]
    simp [headVal, List.append_assoc]

theorem formatRangesToMap_flatten (Gs : List (List FormatRange))
    (hgs : ∀ G ∈ Gs, G ≠ [] ∧ ∀ r ∈ G, equal (headVal G) r.value = true)
    (hpw : Gs.Pairwise (fun G1 G2 => ∀ r ∈ G2, equal (headVal G1) r.value = false)) :
    formatRangesToMap Gs.flatten = Gs.map (fun G => (headVal G, G)) := by
  unfold formatRangesToMap
  rw [foldl_addToGroup_flatten Gs []
    (fun kg hkg => absurd hkg (List.not_mem_nil kg)) hgs hpw]
  simp

theorem pushCleanToGroup_no_match (v : FormatValue) (nr : FormatRange) :
    ∀ (m : List (FormatValue × List FormatRange)),
    (∀ kg ∈ m, equal kg.1 v = false) → pushCleanToGroup v nr m = m := by
  intro m
  induction m with
  | nil => intro _; rfl
  | cons e rest ih =>
    intro h
    obtain ⟨k, g⟩ := e
    simp only [pushCleanToGroup]
    rw [if_neg (by simp [h (k, g) (List.mem_cons_self _ _)]),
      ih (fun kg hkg => h kg (List.mem_cons_of_mem _ hkg))]

theorem flatMap_id_of_eq {α : Type} {l : List (List α)} {f : List α → List α}
    (h : ∀ x ∈ l, f x = x) : l.flatMap f = l.flatten := by
  induction l with
  | nil => rfl
  | cons x xs ih =>
    simp only [List.flatMap_cons, List.flatten_cons, h x (List.mem_cons_self _ _),
      ih (fun y hy => h y (List.mem_cons_of_mem _ hy))]

/-- Writing back the exact list a key already maps to leaves a
duplicate-free `Map` unchanged. -/
theorem mapSet_self : ∀ (m : FormatMap) (f : Formatter) (l : List FormatRange),
    (m.map Prod.fst).Nodup → mapGet m f = some l → mapSet m f l = m := by
  intro m
  induction m with
  | nil =>
    intro f l _ hget
    simp [mapGet] at hget
  | cons e rest ih =>
    intro f l hnodup hget
    obtain ⟨k, g⟩ := e
    simp only [List.map_cons, List.nodup_cons] at hnodup
    by_cases hk : (k == f) = true
    · have hkf : k = f := by simpa using hk
      have hfind : List.find? (fun e => e.1 == f) ((k, g) :: rest) = some (k, g) :=
        List.find?_cons_of_pos _ hk
      simp only [mapGet, hfind, Option.map_some', Option.some.injEq] at hget
      rw [mapSet, if_pos (by simp [List.any_cons, hk])]
      simp only [List.map_cons]
      have hhead : (((k, g) : Formatter × List FormatRange).1 == f) = true := hk
      rw [if_pos hhead]
      have htail : ∀ e ∈ rest, ((e : Formatter × List FormatRange).1 == f) = false := by
        intro e he
        have hne : e.1 ≠ k := by
          intro heq
          exact hnodup.1 (heq ▸ List.mem_map_of_mem Prod.fst he)
        simp [hkf ▸ hne]
      have hmap : rest.map (fun e => if (e.1 == f) = true then (f, l) else e)
          = rest.map id :=
        List.map_congr_left (fun e he => by simp [htail e he])
      rw [hmap, List.map_id, ← hkf, ← hget]
    · have hk' : (k == f) = false := by simpa using hk
      have hfind : List.find? (fun e => e.1 == f) ((k, g) :: rest) =
          List.find? (fun e => e.1 == f) rest :=
        List.find?_cons_of_neg _ (by simp [hk'])
      simp only [mapGet, hfind] at hget
      have hget' : mapGet rest f = some l := by simp only [mapGet, hget]
      obtain ⟨e0, hfind0⟩ : ∃ e0, List.find? (fun e => e.1 == f) rest = some e0 := by
        cases hc : List.find? (fun e => e.1 == f) rest with
        | none => rw [hc] at hget; simp at hget
        | some e0 => exact ⟨e0, rfl⟩
      have hp := List.find?_some hfind0
      have hany : rest.any (fun e => e.1 == f) = true :=
        List.any_eq_true.mpr ⟨e0, List.mem_of_find?_eq_some hfind0, hp⟩
      have ihr := ih f l hnodup.2 hget'
      rw [mapSet, if_pos (by simp [List.any_cons, hany])]
      rw [mapSet, if_pos hany] at ihr
      simp only [List.map_cons]
      rw [if_neg (by simp [hk']), ihr]

/-- The overlap branch of `normalizeFormatRange`, handed a
`CleanFormatRule` whose non-void inner value matches no stored value:
the push into the value groups finds no `equal` key, and re-tiling each
untouched group reproduces it exactly. -/
theorem normalize_overlap_clean_no_match (L : Nat) (f : Formatter) (hov : f.overlap = true)
    (l : List FormatRange) (nr : FormatRange) (v : FormatValue)
    (hnr : nr.value = FormatValue.clean v) (hv : isVoid v = false)
    (hok : overlapListOk L l) (hnom : ∀ r ∈ l, equal r.value v = false) :
    normalizeFormatRange L f l (some nr) = l := by
  obtain ⟨Gs, rfl, hgs, hpw⟩ := hok
  unfold normalizeFormatRange
  rw [if_pos hov]
  dsimp only
  rw [hnr]
  dsimp only
  rw [if_neg (by simp [hv])]
  have hm : formatRangesToMap Gs.flatten = Gs.map (fun G => (headVal G, G)) :=
    formatRangesToMap_flatten Gs
      (fun G hG => ⟨(hgs G hG).1, fun r hr => ((hgs G hG).2.2 r hr).2.2.2⟩) hpw
  have hpush : pushCleanToGroup v nr (Gs.map (fun G => (headVal G, G)))
      = Gs.map (fun G => (headVal G, G)) := by
    apply pushCleanToGroup_no_match
    intro kg hkg
    obtain ⟨G, hG, rfl⟩ := List.mem_map.mp hkg
    obtain ⟨h, t, rfl⟩ := List.exists_cons_of_ne_nil (hgs _ hG).1
    exact hnom h (List.mem_flatten.mpr ⟨h :: t, hG, List.mem_cons_self _ _⟩)
  rw [hm, hpush, List.map_map]
  have hsnd : Gs.map ((fun kg : FormatValue × List FormatRange => kg.2)
      ∘ (fun G => (headVal G, G))) = Gs.map id :=
    List.map_congr_left (fun G _ => rfl)
  rw [hsnd, List.map_id]
  exact flatMap_id_of_eq (fun G hG =>
    toRanges_tile_gapped L G ((hgs G hG).2.1)
      (fun r hr => ((hgs G hG).2.2 r hr).1)
      (fun r hr => ⟨((hgs G hG).2.2 r hr).2.1, ((hgs G hG).2.2 r hr).2.2.1⟩))

/-- C9 as stated is false: for an inline overlap formatter, `merge` with
`CleanFormatRule` data on an empty entry is not a no-op (the rule range
itself is stored), and `merge` with null-valued data whose value matches
no group is not a no-op either (null is painted into every group,
splitting its runs). -/
theorem merge_overlap_noop_fails :
    (merge ⟨10, []⟩ commentFormatter
        (MergeData.range ⟨0, 3, FormatValue.clean (FormatValue.prim (JSPrim.str "x"))⟩)
      ≠ ⟨10, []⟩) ∧
    (merge ⟨10, [(commentFormatter, [⟨0, 5, FormatValue.prim (JSPrim.str "a")⟩])]⟩
        commentFormatter (MergeData.range ⟨1, 2, FormatValue.null⟩)
      ≠ ⟨10, [(commentFormatter, [⟨0, 5, FormatValue.prim (JSPrim.str "a")⟩])]⟩) := by
  decide

/-- **C9** (amended): for an inline overlap formatter, `merge` with
`CleanFormatRule` data whose non-void inner value matches no stored
value leaves a well-formed, duplicate-key-free, nonempty store entry
unchanged; and on a formatter with no stored ranges at all, void-valued
(null) data is a no-op.  (As the counterexample shows, the unqualified
claim fails for clean data on an empty entry and for null-valued
data.) -/
theorem merge_overlap_cleanOrNull_noop :
    (∀ (st : Format) (f : Formatter) (nr : FormatRange) (v : FormatValue)
        (l : List FormatRange),
      f.type = FormatType.Inline → f.overlap = true →
      mapGet st.map f = some l → l ≠ [] → (st.map.map Prod.fst).Nodup →
      overlapListOk st.slotLength l →
      nr.value = FormatValue.clean v → isVoid v = false →
      (∀ r ∈ l, equal r.value v = false) →
      merge st f (MergeData.range nr) = st) ∧
    (∀ (st : Format) (f : Formatter) (nr : FormatRange),
      f.type = FormatType.Inline → mapGet st.map f = none → isVoid nr.value = true →
      merge st f (MergeData.range nr) = st) := by
  constructor
  · intro st f nr v l hf hov hget hne hnodup hok hnr hv hnom
    have hnorm : normalizeFormatRange st.slotLength f l (some nr) = l :=
      normalize_overlap_clean_no_match st.slotLength f hov l nr v hnr hv hok hnom
    unfold merge
    rw [hf]
    dsimp only
    rw [hget]
    dsimp only
    rw [hnorm]
    rw [if_neg (by simp [List.isEmpty_iff, hne])]
    rw [mapSet_self st.map f l hnodup hget]
  · intro st f nr hf hget hvoid
    unfold merge
    rw [hf]
    dsimp only
    rw [hget]
    dsimp only
    rw [if_pos hvoid]

/-- Witness for the amended C9: a comment store with two value groups
("a" at `[0,2)∪[5,7)`, "b" at `[3,4)`) is untouched by a clean rule for
the unused value "c". -/
theorem merge_overlap_cleanOrNull_noop_witness :
    merge ⟨10, [(commentFormatter,
        [⟨0, 2, FormatValue.prim (JSPrim.str "a")⟩, ⟨5, 7, FormatValue.prim (JSPrim.str "a")⟩,
          ⟨3, 4, FormatValue.prim (JSPrim.str "b")⟩])]⟩
      commentFormatter
      (MergeData.range ⟨1, 6, FormatValue.clean (FormatValue.prim (JSPrim.str "c"))⟩)
    = ⟨10, [(commentFormatter,
        [⟨0, 2, FormatValue.prim (JSPrim.str "a")⟩, ⟨5, 7, FormatValue.prim (JSPrim.str "a")⟩,
          ⟨3, 4, FormatValue.prim (JSPrim.str "b")⟩])]⟩ :=
  merge_overlap_cleanOrNull_noop.1
    ⟨10, [(commentFormatter,
      [⟨0, 2, FormatValue.prim (JSPrim.str "a")⟩, ⟨5, 7, FormatValue.prim (JSPrim.str "a")⟩,
        ⟨3, 4, FormatValue.prim (JSPrim.str "b")⟩])]⟩
    commentFormatter
    ⟨1, 6, FormatValue.clean (FormatValue.prim (JSPrim.str "c"))⟩
    (FormatValue.prim (JSPrim.str "c"))
    [⟨0, 2, FormatValue.prim (JSPrim.str "a")⟩, ⟨5, 7, FormatValue.prim (JSPrim.str "a")⟩,
      ⟨3, 4, FormatValue.prim (JSPrim.str "b")⟩]
    (by decide) (by decide) (by decide) (by decide) (by decide)
    ⟨[[⟨0, 2, FormatValue.prim (JSPrim.str "a")⟩, ⟨5, 7, FormatValue.prim (JSPrim.str "a")⟩],
       [⟨3, 4, FormatValue.prim (JSPrim.str "b")⟩]], by decide⟩
    (by decide) (by decide) (by decide)

theorem chained_append : ∀ (l1 : List (Nat × Nat)) (s m e : Nat) (l2 : List (Nat × Nat)),
    chained s l1 m → chained m l2 e → chained s (l1 ++ l2) e := by
  intro l1
  induction l1 with
  | nil =>
    intro s m e l2 h1 h2
    simp only [chained] at h1
    rw [List.nil_append, h1]
    exact h2
  | cons a l1' ih =>
    intro s m e l2 h1 h2
    obtain ⟨a1, a2⟩ := a
    obtain ⟨hh1, hh2, hh3⟩ := h1
    exact ⟨hh1, hh2, ih a2 m e l2 hh3 h2⟩

theorem leafSpansList_append : ∀ (l1 l2 : List FormatTree),
    leafSpansList (l1 ++ l2) = leafSpansList l1 ++ leafSpansList l2 := by
  intro l1
  induction l1 with
  | nil => intro l2; simp [leafSpansList]
  | cons c cs ih =>
    intro l2
    simp only [List.cons_append, leafSpansList, List.append_eq, ih, List.append_assoc]

theorem leafSpansList_pushSplice (t : FormatTree) :
    leafSpansList (pushSplice t) = leafSpans t := by
  match t with
  | .mk s e (f :: fs) c => simp [pushSplice, leafSpansList]
  | .mk s e [] (c :: cs) => rfl
  | .mk s e [] [] => simp [pushSplice, leafSpansList, leafSpans]

theorem pushSplice_ne_nil (t : FormatTree) : pushSplice t ≠ [] := by
  match t with
  | .mk s e (f :: fs) c => simp [pushSplice]
  | .mk s e [] (c :: cs) => simp [pushSplice]
  | .mk s e [] [] => simp [pushSplice]

/-- Assembling a `toTree` node from three chained child groups. -/
theorem chained_node (s e ns ne : Nat) (formats : List FormatItem)
    (leading middle trailing : List FormatTree)
    (hmid : middle ≠ [])
    (hl : chained s (leafSpansList leading) ns)
    (hm : chained ns (leafSpansList middle) ne)
    (ht : chained ne (leafSpansList trailing) e) :
    chained s (leafSpans (FormatTree.mk s e formats (leading ++ middle ++ trailing))) e := by
  have hch : leading ++ middle ++ trailing ≠ [] := by
    intro hnil
    rcases List.append_eq_nil.mp hnil with ⟨h1, _⟩
    rcases List.append_eq_nil.mp h1 with ⟨_, h3⟩
    exact hmid h3
  obtain ⟨c, cs, hc⟩ := List.exists_cons_of_ne_nil hch
  rw [hc]
  have hsp : leafSpans (FormatTree.mk s e formats (c :: cs)) = leafSpansList (c :: cs) := rfl
  rw [hsp, ← hc, leafSpansList_append, leafSpansList_append]
  exact chained_append _ _ _ _ _ (chained_append _ _ _ _ _ hl hm) ht

/-- Every range an `extract` copy stores lies strictly inside the
extraction window. -/
theorem extract_ranges_bounds (fmt : Format) (s e : Nat) :
    ∀ q ∈ (extract fmt s e).map, ∀ r ∈ q.2,
      s ≤ r.startIndex ∧ r.startIndex < r.endIndex ∧ r.endIndex ≤ e := by
  intro q hq r hr
  rcases List.mem_filterMap.mp hq with ⟨q0, hq0, he⟩
  by_cases hc : (extractFormatRangesByFormatter fmt s e q0.1).isEmpty = true
  · simp only [hc, if_true] at he
    exact absurd he (by simp)
  · simp only [hc] at he
    rw [if_neg (by simp)] at he
    injection he with he
    rw [← he] at hr
    dsimp only at hr
    rw [extractFormatRangesByFormatter] at hr
    rcases List.mem_filterMap.mp hr with ⟨r0, hr0, hre⟩
    by_cases hc1 : r0.startIndex > e ∨ r0.endIndex < s
    · rw [if_pos hc1] at hre
      exact absurd hre (by simp)
    · rw [if_neg hc1] at hre
      by_cases hc2 : max r0.startIndex s < min r0.endIndex e
      · rw [if_pos hc2] at hre
        injection hre with hre
        rw [← hre]
        exact ⟨le_max_right _ _, hc2, min_le_right _ _⟩
      · rw [if_neg hc2] at hre
        exact absurd hre (by simp)

theorem mem_treeFlat_of (m : FormatMap) (q : Formatter × List FormatRange) (hq : q ∈ m)
    (r : FormatRange) (hr : r ∈ q.2) : (q.1, r) ∈ treeFlat m := by
  simp only [treeFlat, List.mem_flatMap]
  exact ⟨q, hq, List.mem_map_of_mem _ (List.mem_reverse.mpr hr)⟩

theorem treeFlat_mem (m : FormatMap) : ∀ p ∈ treeFlat m, ∃ q ∈ m, p.1 = q.1 ∧ p.2 ∈ q.2 := by
  intro p hp
  simp only [treeFlat, List.mem_flatMap] at hp
  obtain ⟨q, hq, hp2⟩ := hp
  obtain ⟨r, hr, rfl⟩ := List.mem_map.mp hp2
  exact ⟨q, hq, rfl, List.mem_reverse.mp hr⟩

theorem treeFlat_bounds (fmt : Format) (s e : Nat) :
    ∀ p ∈ treeFlat (extract fmt s e).map,
      s ≤ p.2.startIndex ∧ p.2.startIndex < p.2.endIndex ∧ p.2.endIndex ≤ e := by
  intro p hp
  obtain ⟨q, hq, _, hr⟩ := treeFlat_mem _ p hp
  exact extract_ranges_bounds fmt s e q hq p.2 hr

/-- The shape of `toTree`'s split-window scan state once a non-exact
range has been seen: a nonempty window inside `[s, e)`, never the full
window. -/
def goodSt (s e : Nat) (st : Nat × Nat) : Prop :=
  s ≤ st.1 ∧ st.1 < st.2 ∧ st.2 ≤ e ∧ (s < st.1 ∨ st.2 < e)

theorem newWindow_good {s e : Nat} {p : Formatter × FormatRange}
    (hb : s ≤ p.2.startIndex ∧ p.2.startIndex < p.2.endIndex ∧ p.2.endIndex ≤ e)
    (hne : ¬ exactR s e p.2 = true) : goodSt s e (p.2.startIndex, p.2.endIndex) := by
  have hne' : ¬(p.2.startIndex = s ∧ p.2.endIndex = e) := by
    intro hand
    exact hne (by simp [exactR, hand.1, hand.2])
  refine ⟨hb.1, hb.2.1, hb.2.2, ?_⟩
  by_cases h1 : p.2.startIndex = s
  · have h2 : p.2.endIndex ≠ e := fun h2 => hne' ⟨h1, h2⟩
    right
    omega
  · left
    omega

theorem scanStep_good {s e : Nat} {st : Nat × Nat} {p : Formatter × FormatRange}
    (hb : s ≤ p.2.startIndex ∧ p.2.startIndex < p.2.endIndex ∧ p.2.endIndex ≤ e)
    (hst : goodSt s e st) : goodSt s e (scanStep s e st p) := by
  unfold scanStep
  by_cases hex : exactR s e p.2 = true
  · rw [if_pos hex]
    exact hst
  · rw [if_neg hex]
    by_cases hlt : p.2.startIndex < st.1
    · rw [if_pos hlt]
      exact newWindow_good hb hex
    · rw [if_neg hlt]
      by_cases heq : (p.2.startIndex == st.1) = true
      · rw [if_pos heq]
        have heq' : p.2.startIndex = st.1 := by simpa using heq
        obtain ⟨hg1, hg2, hg3, hg4⟩ := hst
        refine ⟨hg1, lt_of_lt_of_le hg2 (le_max_left _ _), max_le hg3 hb.2.2, ?_⟩
        rcases hg4 with h | h
        · exact Or.inl h
        · by_cases hs1 : s < st.1
          · exact Or.inl hs1
          · right
            have hst1 : st.1 = s := by omega
            have hpe : p.2.endIndex ≠ e := by
              intro hpe
              exact hex (by simp [exactR, hpe]; omega)
            have : p.2.endIndex < e := by omega
            exact max_lt h this
      · rw [if_neg heq]
        exact hst

theorem foldl_scanStep_good {s e : Nat} : ∀ (flat : List (Formatter × FormatRange))
    (st : Nat × Nat),
    (∀ p ∈ flat, s ≤ p.2.startIndex ∧ p.2.startIndex < p.2.endIndex ∧ p.2.endIndex ≤ e) →
    goodSt s e st → goodSt s e (flat.foldl (scanStep s e) st) := by
  intro flat
  induction flat with
  | nil => intro st _ hst; exact hst
  | cons p rest ih =>
    intro st hb hst
    simp only [List.foldl_cons]
    exact ih _ (fun x hx => hb x (List.mem_cons_of_mem _ hx))
      (scanStep_good (hb p (List.mem_cons_self _ _)) hst)

theorem scan_from_init {s e : Nat} : ∀ (flat : List (Formatter × FormatRange)),
    (∀ p ∈ flat, s ≤ p.2.startIndex ∧ p.2.startIndex < p.2.endIndex ∧ p.2.endIndex ≤ e) →
    (∃ p ∈ flat, exactR s e p.2 = false) →
    goodSt s e (flat.foldl (scanStep s e) (e, s)) := by
  intro flat
  induction flat with
  | nil =>
    intro _ hex
    simp at hex
  | cons p rest ih =>
    intro hb hex
    simp only [List.foldl_cons]
    by_cases hexp : exactR s e p.2 = true
    · have hstep : scanStep s e (e, s) p = (e, s) := by
        unfold scanStep
        rw [if_pos hexp]
      rw [hstep]
      apply ih (fun x hx => hb x (List.mem_cons_of_mem _ hx))
      rcases hex with ⟨w, hw, hwx⟩
      rcases List.mem_cons.mp hw with rfl | hw'
      · rw [hexp] at hwx
        exact absurd hwx (by simp)
      · exact ⟨w, hw', hwx⟩
    · apply foldl_scanStep_good rest _ (fun x hx => hb x (List.mem_cons_of_mem _ hx))
      have hbp := hb p (List.mem_cons_self _ _)
      have hgood : goodSt s e (p.2.startIndex, p.2.endIndex) := newWindow_good hbp hexp
      unfold scanStep
      rw [if_neg hexp, if_pos (show p.2.startIndex < (e, s).1 by dsimp only; omega)]
      exact hgood

theorem treeRangeCount_cons (p : Formatter × List FormatRange) (km : FormatMap) :
    treeRangeCount (p :: km) = p.2.length + treeRangeCount km := by
  simp [treeRangeCount]

/-- The kept-range count as a per-entry sum: a dropped entry had kept no
range, so dropping it does not change the total. -/
theorem treeRangeCount_eq (s e : Nat) : ∀ (m : FormatMap),
    treeRangeCount (treeKeptMap s e m)
      = (m.map (fun q => q.2.countP (fun r => !(exactR s e r && !q.1.columned)))).sum := by
  intro m
  induction m with
  | nil => simp [treeKeptMap, treeRangeCount]
  | cons q rest ih =>
    by_cases hdrop : ((q.2.filter (fun r => !(exactR s e r && !q.1.columned))).isEmpty
        && !q.2.isEmpty) = true
    · have hstep : treeKeptMap s e (q :: rest) = treeKeptMap s e rest := by
        simp only [treeKeptMap, List.filterMap_cons]
        rw [if_pos hdrop]
      have hkept : q.2.filter (fun r => !(exactR s e r && !q.1.columned)) = [] := by
        have h' := hdrop
        rw [Bool.and_eq_true] at h'
        exact List.isEmpty_iff.mp h'.1
      rw [hstep, ih, List.map_cons, List.sum_cons]
      have hcnt : q.2.countP (fun r => !(exactR s e r && !q.1.columned)) = 0 := by
        rw [List.countP_eq_length_filter, hkept]
        rfl
      omega
    · have hstep : treeKeptMap s e (q :: rest)
          = (q.1, q.2.filter (fun r => !(exactR s e r && !q.1.columned)))
            :: treeKeptMap s e rest := by
        simp only [treeKeptMap, List.filterMap_cons]
        rw [if_neg hdrop]
      rw [hstep, treeRangeCount_cons, ih, List.map_cons, List.sum_cons]
      have : (q.2.filter (fun r => !(exactR s e r && !q.1.columned))).length
          = q.2.countP (fun r => !(exactR s e r && !q.1.columned)) :=
        (List.countP_eq_length_filter _ _).symm
      dsimp only
      omega

theorem countP_reverse_pairs (q1 : Formatter) (l : List FormatRange)
    (pr : Formatter × FormatRange → Bool) :
    ((l.reverse.map (fun r => (q1, r))).countP pr) = l.countP (fun r => pr (q1, r)) := by
  rw [List.countP_map, List.countP_eq_length_filter, List.countP_eq_length_filter,
    List.filter_reverse, List.length_reverse]
  rfl

/-- The columned exact-format count as the matching per-entry sum. -/
theorem treeColumned_len (s e : Nat) : ∀ (m : FormatMap),
    (treeColumnedFormats s e (treeFlat m)).length
      = (m.map (fun q => q.2.countP (fun r => exactR s e r && q.1.columned))).sum := by
  intro m
  induction m with
  | nil => simp [treeColumnedFormats, treeFlat]
  | cons q rest ih =>
    have hflat : treeFlat (q :: rest)
        = q.2.reverse.map (fun r => (q.1, r)) ++ treeFlat rest := by
      simp [treeFlat]
    have hlen : ∀ fl, (treeColumnedFormats s e fl).length
        = fl.countP (fun p => exactR s e p.2 && p.1.columned) := by
      intro fl
      simp only [treeColumnedFormats, List.length_map, List.countP_eq_length_filter]
    rw [hlen] at ih ⊢
    rw [hflat, List.countP_append, countP_reverse_pairs, ih, List.map_cons, List.sum_cons]

/-- If the surviving range count exceeds the columned exact-format count,
some flat pair is not an exact-window range. -/
theorem nonexact_of_count (s e : Nat) (m : FormatMap)
    (h : treeRangeCount (treeKeptMap s e m) > (treeColumnedFormats s e (treeFlat m)).length) :
    ∃ p ∈ treeFlat m, exactR s e p.2 = false := by
  by_contra hno
  push_neg at hno
  have hall : ∀ p ∈ treeFlat m, exactR s e p.2 = true := by
    intro p hp
    have := hno p hp
    revert this
    cases exactR s e p.2 <;> simp
  have hle : treeRangeCount (treeKeptMap s e m)
      ≤ (treeColumnedFormats s e (treeFlat m)).length := by
    rw [treeRangeCount_eq, treeColumned_len]
    apply List.sum_le_sum
    intro q hq
    have hexq : ∀ r ∈ q.2, exactR s e r = true :=
      fun r hr => hall (q.1, r) (mem_treeFlat_of m q hq r hr)
    by_cases hcol : q.1.columned = true
    · have h1 : q.2.countP (fun r => !(exactR s e r && !q.1.columned)) = q.2.length :=
        List.countP_eq_length.mpr (fun r hr => by simp [hcol])
      have h2 : q.2.countP (fun r => exactR s e r && q.1.columned) = q.2.length :=
        List.countP_eq_length.mpr (fun r hr => by simp [hcol, hexq r hr])
      omega
    · have hcol' : q.1.columned = false := by
        revert hcol
        cases q.1.columned <;> simp
      have h1 : q.2.countP (fun r => !(exactR s e r && !q.1.columned)) = 0 := by
        rw [List.countP_eq_zero]
        intro r hr
        simp [hcol', hexq r hr]
      omega
  omega

/-- The partition invariant for the fuelled recursion: with enough fuel
for the window, the leaf spans tile `[s, e)` exactly. -/
theorem toTreeAux_chained : ∀ (fuel : Nat) (fmt : Format) (s e : Nat),
    s ≤ e → e - s ≤ fuel → chained s (leafSpans (toTreeAux fuel fmt s e)) e := by
  intro fuel
  induction fuel with
  | zero =>
    intro fmt s e h1 h2
    have he : e = s := by omega
    subst he
    simp [toTreeAux, leafSpans, chained]
  | succ fuel ih =>
    intro fmt s e h1 h2
    rw [toTreeAux]
    dsimp only
    split
    next hguard =>
      set scanned := (treeFlat (extract fmt s e).map).foldl (scanStep s e) (e, s) with hsc
      have hbounds := treeFlat_bounds fmt s e
      have hex : ∃ p ∈ treeFlat (extract fmt s e).map, exactR s e p.2 = false :=
        nonexact_of_count s e (extract fmt s e).map hguard
      have hgood : goodSt s e scanned := by
        rw [hsc]
        exact scan_from_init _ hbounds hex
      obtain ⟨hg1, hg2, hg3, hg4⟩ := hgood
      refine chained_node s e scanned.1 scanned.2 _ _ _ _ (pushSplice_ne_nil _) ?_ ?_ ?_
      · by_cases hsn : s < scanned.1
        · rw [if_pos hsn]
          by_cases hcse : (treeColumnedFormats s e (treeFlat (extract fmt s e).map)).isEmpty
              = true
          · rw [if_pos hcse]
            show chained s (leafSpans (FormatTree.mk s scanned.1 [] []) ++ []) scanned.1
            rw [List.append_nil]
            exact ⟨rfl, Nat.le_of_lt hsn, rfl⟩
          · rw [if_neg hcse]
            show chained s (leafSpans (toTreeAux fuel
              (extract ⟨(extract fmt s e).slotLength, treeKeptMap s e (extract fmt s e).map⟩
                s scanned.1) s scanned.1) ++ []) scanned.1
            rw [List.append_nil]
            exact ih _ s scanned.1 (Nat.le_of_lt hsn) (by omega)
        · rw [if_neg hsn]
          show chained s ([] : List (Nat × Nat)) scanned.1
          have : scanned.1 = s := by omega
          rw [this]
          rfl
      · rw [leafSpansList_pushSplice]
        exact ih _ scanned.1 scanned.2 (Nat.le_of_lt hg2) (by omega)
      · by_cases hne : scanned.2 < e
        · rw [if_pos hne, leafSpansList_pushSplice]
          exact ih _ scanned.2 e (Nat.le_of_lt hne) (by omega)
        · rw [if_neg hne]
          show chained scanned.2 ([] : List (Nat × Nat)) e
          have : scanned.2 = e := by omega
          rw [this]
          rfl
    next hguard =>
      show chained s (leafSpans (FormatTree.mk s e _ [])) e
      exact ⟨rfl, h1, rfl⟩

/-- **C1**: for every range store and every window `[s, e)` within slot
bounds, the leaf spans of `toTree fmt s e` are contiguous,
non-overlapping, and their union is exactly `[s, e)` — each leaf starts
where the previous one ended, the first starts at `s` and the last ends
at `e`. -/
theorem toTree_leaf_partition (fmt : Format) (s e : Nat)
    (h1 : s ≤ e) (h2 : e ≤ fmt.slotLength) :
    chained s (leafSpans (toTree fmt s e)) e :=
  toTreeAux_chained (e - s) fmt s e h1 (Nat.le_refl _)

/-- Witness for C1: a store holding a full-width bold range and a
partial italic range, decomposed over its whole slot. -/
theorem toTree_leaf_partition_witness :
    chained 0 (leafSpans (toTree ⟨10, [(boldFormatter, [⟨0, 10, vTrue⟩]),
      (italicFormatter, [⟨3, 7, vTrue⟩])]⟩ 0 10)) 10 :=
  toTree_leaf_partition ⟨10, [(boldFormatter, [⟨0, 10, vTrue⟩]),
    (italicFormatter, [⟨3, 7, vTrue⟩])]⟩ 0 10 (by decide) (by decide)

end Textbus
